/-
  Verification of the echovault memory system against its specification.

  Shallow embedding of the Python sources under src/src/memory/:
    search.py    (merge_results, hybrid_search)
    core.py      (MemoryService.save / search / reindex / delete)
    markdown.py  (session-file mirror writer)
    redaction.py (three-layer redaction pipeline)
    security.py  (safe_compile_pattern)

  Modelling conventions:
  * Python floats are modelled as rationals (ℚ): every arithmetic
    expression in the modelled code (division by a maximum, 0.3 / 0.7
    weighting, comparisons) is carried out verbatim on ℚ.
  * Python strings are modelled as List Char; a text file is modelled as
    the list of its lines (List (List Char)), where the file's content is
    the intercalation of the lines with a newline character.  Python's
    str.split of a file on a newline produces exactly that list, and
    "\n".join is its inverse, so the two views are interchangeable.
  * Fallible collaborator calls (embedding / enrichment providers,
    vector queries) are modelled as Except-valued functions; a Python
    try/except block becomes a match on the Except value.
-/
import Mathlib

namespace EchoVault

/-! ## search.py — merge_results (hybrid ranker)

A search hit row.  The Python code manipulates dicts with at least the
fields `id` and `score`; rows coming from the database also carry a
creation timestamp.  `merge_results` reads and writes only `id` and
`score`; `created` is carried along untouched (the code copies the whole
dict). -/

structure SR where
  id : String
  score : ℚ
  created : Nat
deriving DecidableEq, Repr

/-- Python `max(r["score"] for r in rs)` on a nonempty list (0 on the
empty list, where the Python code never evaluates it: the normalisation
block is guarded by `if fts_results:`). -/
def maxScore : List SR → ℚ
  | [] => 0
  | r :: rs => rs.foldl (fun a x => max a x.score) r.score

/-- search.py lines 29-38: in-place normalisation of a result list.
`max_fts = max(...) or 1.0` — Python's `or` replaces a zero maximum by
1.0 (0.0 is falsy); then `r["score"] / max_fts if max_fts > 0 else 0.0`.
The empty-list guard `if fts_results:` is the `List.map` over `[]`. -/
def normalizeScores (rs : List SR) : List SR :=
  let m := maxScore rs
  let m' := if m = 0 then 1 else m
  rs.map (fun r => { r with score := if 0 < m' then r.score / m' else 0 })

/-- Claim-side normalisation, stated from the amended spec wording: divide
by the list's maximum when it is positive; a zero maximum leaves every
score unchanged; a negative maximum yields all-zero scores.  Used only to
compare against `normalizeScores`, which is translated from the code. -/
def specNormalize (rs : List SR) : List SR :=
  let m := maxScore rs
  rs.map (fun r =>
    { r with score := if 0 < m then r.score / m else if m = 0 then r.score else 0 })

/-- Python dict assignment `scores[rid] = x` on an association list that
keeps insertion order: replace the value in place if the key is present,
append at the end otherwise. -/
def dictSet : List SR → SR → List SR
  | [], x => [x]
  | y :: ys, x => if y.id = x.id then x :: ys else y :: dictSet ys x

/-- search.py lines 46-52: fold one vector row into the score dict:
`scores[rid]["score"] += vec_weight * r["score"]` when the id is present
(the rest of the stored row — in particular `created` — keeps the value
copied from the FTS row), else `scores[rid] = dict(r)` with the weighted
score. -/
def dictAdd (vw : ℚ) : List SR → SR → List SR
  | [], r => [{ r with score := vw * r.score }]
  | y :: ys, r =>
    if y.id = r.id then { y with score := y.score + vw * r.score } :: ys
    else y :: dictAdd vw ys r

/-- search.py lines 40-52: build the combined score dict.  First pass over
the (already normalised) FTS rows: `scores[rid] = dict(r)` then
`scores[rid]["score"] = fts_weight * r["score"]`; second pass folds the
vector rows in with `dictAdd`. -/
def combine (f v : List SR) (fw vw : ℚ) : List SR :=
  let base := f.foldl (fun acc r => dictSet acc { r with score := fw * r.score }) []
  v.foldl (fun acc r => dictAdd vw acc r) base

/-- One step of a stable descending insertion sort: `x` goes immediately
before the first element whose score is at most `x`'s, so elements equal
in score keep their original relative order. -/
def insertDesc (x : SR) : List SR → List SR
  | [] => [x]
  | y :: ys => if y.score ≤ x.score then x :: y :: ys else y :: insertDesc x ys

/-- Python `sorted(scores.values(), key=lambda x: x["score"], reverse=True)`.
Python's sort is stable and `reverse=True` keeps the original order of
elements with equal keys, i.e. it produces the unique stable descending
order; `foldr insertDesc []` produces the same order. -/
def sortDesc (l : List SR) : List SR := l.foldr insertDesc []

/-- search.py lines 9-55, `merge_results`: normalise both lists, combine
with weighted scoring deduplicating by id, sort descending by combined
score, truncate to `limit`. -/
def mergeResults (fts vec : List SR) (fw vw : ℚ) (limit : Nat) : List SR :=
  (sortDesc (combine (normalizeScores fts) (normalizeScores vec) fw vw)).take limit

/-- Score of the row stored under an id in an association list. -/
def lookupScore (l : List SR) (x : String) : Option ℚ :=
  (l.find? (fun r => r.id == x)).map SR.score

/-- How the claim combines the two optional weighted normalised scores:
a term from a list the id is missing from is simply absent from the sum. -/
def combineOpt : Option ℚ → Option ℚ → Option ℚ
  | some a, some b => some (a + b)
  | some a, none => some a
  | none, some b => some b
  | none, none => none

/-- Descending order on scores, position-wise. -/
def SortedDesc (l : List SR) : Prop :=
  l.Pairwise (fun a b => b.score ≤ a.score)

/-! ## search.py hybrid_search and core.py MemoryService.search

The database and the embedding provider are external collaborators; the
fallible ones are modelled as Except-valued functions.  `ensureDim`
models `MemoryService._ensure_vectors`, which returns False when
`db.ensure_vec_table` raises `DimensionMismatchError` and True otherwise. -/

structure Oracle where
  fts : String → Nat → List SR
  embed : String → Except Unit (List ℚ)
  vecSearch : List ℚ → Nat → Except Unit (List SR)
  ensureDim : Nat → Bool

/-- search.py lines 58-95, `hybrid_search`: FTS search with `limit * 2`;
with no embedding provider, normalise the FTS scores and truncate (no
weight applied); with a provider, embed the query, run the vector search
with `limit * 2` and merge.  A fault from `embed` or `vector_search`
propagates to the caller (no try/except here). -/
def hybridSearch (o : Oracle) (useProvider : Bool) (q : String) (limit : Nat) :
    Except Unit (List SR) :=
  let fts := o.fts q (limit * 2)
  if useProvider then
    match o.embed q with
    | .error e => .error e
    | .ok qv =>
      match o.vecSearch qv (limit * 2) with
      | .error e => .error e
      | .ok vr => .ok (mergeResults fts vr (3/10) (7/10) limit)
  else
    .ok ((normalizeScores fts).take limit)

/-- core.py lines 281-339, `MemoryService.search`: FTS-only when
`use_vectors` is false; otherwise, when vectors are available, try
embed + `_ensure_vectors` + `hybrid_search` inside a try block whose
`except DimensionMismatchError` / `except Exception` clauses both fall
through to the FTS-only fallback.  The provider is deterministic, so the
embed call in `search` and the one inside `hybrid_search` agree. -/
def searchM (o : Oracle) (vecAvail useVectors : Bool) (q : String) (limit : Nat) :
    List SR :=
  let fb :=
    match hybridSearch o false q limit with
    | .ok r => r
    | .error _ => []
  if useVectors = false then fb
  else if vecAvail = true then
    match o.embed q with
    | .error _ => fb
    | .ok emb =>
      if o.ensureDim emb.length then
        match hybridSearch o true q limit with
        | .ok r => r
        | .error _ => fb
      else fb
  else fb

/-- Concrete oracle whose whole vector path faults, for the witness. -/
def faultyOracle : Oracle where
  fts := fun _ _ => [⟨"a", 2, 0⟩, ⟨"b", 1, 0⟩]
  embed := fun _ => .error ()
  vecSearch := fun _ _ => .error ()
  ensureDim := fun _ => false

/-! ## Strings and lines

A Python string is a `List Char`; a text file is its list of lines
(`List Line`), the file content being `intercalate "\n" lines`.  The
markdown writer splits file content on the newline character right away
and joins with newlines at the end, so the two views agree; functions
below operate directly on the line lists. -/

abbrev Line := List Char

def strL (s : String) : Line := s.toList

/-- Python whitespace for str.strip / str.rstrip / \s. -/
def pySpace (c : Char) : Bool :=
  c = ' ' || c = '\t' || c = '\n' || c = '\r' || c = '\x0b' || c = '\x0c'

/-- Python str.rstrip(): drop trailing whitespace. -/
def rtrimL : Line → Line
  | [] => []
  | c :: cs =>
    let r := rtrimL cs
    if r.isEmpty then (if pySpace c then [] else [c]) else c :: r

/-- Python str.lstrip(): drop leading whitespace. -/
def ltrimL (l : Line) : Line := l.dropWhile pySpace

/-- Python str.strip(). -/
def stripL (l : Line) : Line := ltrimL (rtrimL l)

/-- line.strip() == "" : the line is whitespace-only. -/
def isBlank (l : Line) : Bool := l.all pySpace

/-- Python `pat in s` (substring test) for a pattern with no newline;
an occurrence inside the joined file content then lies within one line. -/
def containsSub (pat : Line) : Line → Bool
  | [] => pat.isPrefixOf []
  | c :: cs => pat.isPrefixOf (c :: cs) || containsSub pat cs

/-- Python s.split(ch). -/
def splitOnChar (ch : Char) : Line → List Line
  | [] => [[]]
  | c :: cs =>
    match splitOnChar ch cs with
    | [] => [[]]
    | g :: gs => if c = ch then [] :: g :: gs else (c :: g) :: gs

/-- Python ", ".join(items). -/
def joinComma (items : List Line) : Line := List.intercalate (strL ", ") items

/-- Python lexicographic string comparison `a < b` (by code point,
proper prefix first). -/
def lexLt : Line → Line → Bool
  | [], [] => false
  | [], _ :: _ => true
  | _ :: _, [] => false
  | a :: as, b :: bs => if a = b then lexLt as bs else decide (a < b)

/-- One step of Python sorted() on strings (ascending, duplicates kept). -/
def insertSorted (x : Line) : List Line → List Line
  | [] => [x]
  | y :: ys => if lexLt y x then y :: insertSorted x ys else x :: y :: ys

/-- Python sorted(list-of-strings). -/
def sortL (l : List Line) : List Line := l.foldr insertSorted []

/-- One step of Python sorted(set(...)): insert without duplicating. -/
def insertSortedSet (x : Line) : List Line → List Line
  | [] => [x]
  | y :: ys =>
    if x = y then y :: ys
    else if lexLt x y then x :: y :: ys
    else y :: insertSortedSet x ys

/-- Python sorted(set(list-of-strings)): ascending, deduplicated (exact,
case-sensitive equality — Python set uses string equality). -/
def sortedSetL (l : List Line) : List Line := l.foldr insertSortedSet []

/-! ## markdown.py — the mirror writer -/

/-- Record categories.  Modelled from the spec: memory/models.py is not
under src/ (markdown.py imports `VALID_CATEGORIES`, `CATEGORY_HEADINGS`
from it).  §3 fixes "a fixed enum with a fixed canonical display order";
the order is constrained by §8 (decision before bug; decision before
pattern before learning) and the repository tests (test_markdown.py
asserts "## Decisions" precedes "## Bugs Fixed" and "## Decisions" <
"## Patterns" < "## Learnings"). -/
inductive Category where
  | decision
  | bug
  | pattern
  | context
  | learning
deriving DecidableEq, Repr

/-- Modelled from the spec: the canonical category order (see `Category`).
markdown.py builds `category_order = list(VALID_CATEGORIES)` from it. -/
def VALID_CATEGORIES : List Category :=
  [.decision, .bug, .pattern, .context, .learning]

/-- Modelled from the spec: the H2 heading per category; "Decisions",
"Bugs Fixed", "Patterns", "Learnings" appear verbatim in
test_markdown.py, "Context" follows the category name. -/
def CATEGORY_HEADINGS : Category → Line
  | .decision => strL "Decisions"
  | .bug => strL "Bugs Fixed"
  | .pattern => strL "Patterns"
  | .context => strL "Context"
  | .learning => strL "Learnings"

/-- Python `category_order.index(category)`. -/
def catRank (c : Category) : Nat := VALID_CATEGORIES.findIdx (fun x => x == c)

/-- markdown.py lines 240-244: given a line, if it is an H2 heading whose
stripped text equals a category heading, the canonical rank of that
category. -/
def lineRank (l : Line) : Option Nat :=
  if (strL "## ").isPrefixOf l then
    VALID_CATEGORIES.findIdx? (fun c => CATEGORY_HEADINGS c == stripL (l.drop 3))
  else none

/-- markdown.py lines 235-250: the insertion index for a new category
heading — the index of the first line that is a category heading of rank
greater than `target`, or the number of lines when there is none. -/
def findPos (target : Nat) : List Line → Nat
  | [] => 0
  | l :: ls =>
    match lineRank l with
    | some k => if target < k then 0 else findPos target ls + 1
    | none => findPos target ls + 1

/-- Effect of `"\n".join(lines).rstrip()` on the line list: drop trailing
blank lines and right-trim the last kept line ("" when everything is
whitespace). -/
def rstripLines (L : List Line) : List Line :=
  match L.reverse.dropWhile isBlank with
  | [] => [[]]
  | last :: restRev => ((rtrimL last) :: restRev).reverse

/-- markdown.py lines 226-259, `_insert_new_category`: splice
`["## heading", "", section, ""]` in at `findPos`, then
`"\n".join(...).rstrip() + "\n"` (the trailing `+ "\n"` is the final
empty line).  The multi-line section string contributes its lines. -/
def insertNewCategory (lines : List Line) (cat : Category) (secLines : List Line) :
    List Line :=
  let p := findPos (catRank cat) lines
  rstripLines
      (lines.take p
        ++ [strL "## " ++ CATEGORY_HEADINGS cat, []] ++ secLines ++ [[]]
        ++ lines.drop p)
    ++ [[]]

/-- markdown.py lines 191-223, `_append_under_existing_category` without
the final `+ "\n"`: after each line equal to the heading line, skip the
following blank lines, then the following non-H2 lines, and insert a
blank line plus the section there; the scan then continues, so a later
duplicate heading line would receive another copy (faithful to the
Python loop). -/
def appendUnderGo (hline : Line) (secLines : List Line) : Nat → List Line → List Line
  | 0, L => L
  | _, [] => []
  | f + 1, l :: ls =>
    if l = hline then
      let blanks := ls.takeWhile isBlank
      let after := ls.dropWhile isBlank
      let secs := after.takeWhile (fun x => ¬ (strL "## ").isPrefixOf x)
      let rest := after.dropWhile (fun x => ¬ (strL "## ").isPrefixOf x)
      l :: (blanks ++ secs ++ [[]] ++ secLines ++ appendUnderGo hline secLines f rest)
    else l :: appendUnderGo hline secLines f ls

/-- Every step of the Python loop consumes at least the current line, so
`length + 1` rounds of `appendUnderGo` always reach the end of the list. -/
def appendUnder (hline : Line) (secLines : List Line) (L : List Line) : List Line :=
  appendUnderGo hline secLines (L.length + 1) L

/-- `_append_under_existing_category` including the final `+ "\n"`. -/
def appendUnderExisting (body : List Line) (h : Line) (secLines : List Line) :
    List Line :=
  appendUnder (strL "## " ++ h) secLines body ++ [[]]

/-- markdown.py lines 174-188, `_insert_section_in_body`: no category —
`body.rstrip() + "\n\n" + section + "\n"`; otherwise the substring test
`f"## {heading}" in body` (the pattern has no newline, so it is a
substring of some line) chooses between appending under the existing
heading and inserting a new one. -/
def insertSectionInBody (body : List Line) (cat : Option Category)
    (secLines : List Line) : List Line :=
  match cat with
  | none => rstripLines body ++ [[]] ++ secLines ++ [[]]
  | some c =>
    let h := CATEGORY_HEADINGS c
    if body.any (fun l => containsSub (strL "## " ++ h) l) then
      appendUnderExisting body h secLines
    else insertNewCategory body c secLines

/-- markdown.py lines 116-126, `_split_frontmatter`:
`content.split("---\n", 2)` with at least three parts yields
`("---\n" + parts[1] + "---", parts[2])`, else `("", content)`.  On the
writer's file shape — first line exactly `---`, interior lines that
neither equal nor end in `---` — the string-level split cuts exactly at
the two delimiter lines; the degenerate frontmatter `""` contributes the
single empty line that `updated_frontmatter + "\n" + body` produces. -/
def splitFrontmatter (lines : List Line) : List Line × List Line :=
  match lines with
  | l :: rest =>
    if l = strL "---" then
      let fm := rest.takeWhile (fun x => x ≠ strL "---")
      match rest.dropWhile (fun x => x ≠ strL "---") with
      | d :: body => (l :: fm ++ [d], body)
      | [] => ([[]], lines)
    else ([[]], lines)
  | [] => ([[]], lines)

/-- Regex `\[(.*?)\]` via re.search: the content between the first `[`
and the first `]` after it, or none. -/
def extractBracket (l : Line) : Option Line :=
  match l.dropWhile (fun c => c ≠ '[') with
  | [] => none
  | _ :: rest =>
    if (rest.dropWhile (fun c => c ≠ ']')).isEmpty then none
    else some (rest.takeWhile (fun c => c ≠ ']'))

/-- markdown.py lines 138-151: parse an existing `tags: [...]` or
`sources: [...]` line — empty or whitespace-only bracket content yields
no entries, otherwise split on commas and strip each item. -/
def parseListField (l : Line) : List Line :=
  match extractBracket l with
  | none => []
  | some inner =>
    if isBlank inner then [] else (splitOnChar ',' inner).map stripL

/-- markdown.py lines 129-171, `_update_frontmatter`: collect existing
tags and sources from the frontmatter lines, merge
(`sorted(set(existing_tags + mem.tags))` — exact string equality — and
append the new source when not present), and rebuild the lines. -/
def updateFrontmatter (fm : List Line) (memTags : List Line)
    (memSource : Option Line) : List Line :=
  let existingTags :=
    match fm.find? (fun l => (strL "tags:").isPrefixOf l) with
    | some l => parseListField l
    | none => []
  let existingSources :=
    match fm.find? (fun l => (strL "sources:").isPrefixOf l) with
    | some l => parseListField l
    | none => []
  let allTags := sortedSetL (existingTags ++ memTags)
  let allSources :=
    match memSource with
    | some s => if existingSources.contains s then existingSources
                else existingSources ++ [s]
    | none => existingSources
  fm.map (fun l =>
    if (strL "tags:").isPrefixOf l then strL "tags: [" ++ joinComma allTags ++ [']']
    else if (strL "sources:").isPrefixOf l then
      strL "sources: [" ++ joinComma allSources ++ [']']
    else l)

/-- The record fields the markdown writer reads. -/
structure Mem where
  title : Line
  what : Line
  why : Option Line
  impact : Option Line
  source : Option Line
  tags : List Line
  category : Option Category
  project : Line

/-- markdown.py lines 12-40, `render_section` (as lines; the optional
multi-line details string contributes its lines). -/
def renderSection (m : Mem) (details : Option (List Line)) : List Line :=
  [strL "### " ++ m.title, strL "**What:** " ++ m.what]
  ++ (match m.why with | some w => [strL "**Why:** " ++ w] | none => [])
  ++ (match m.impact with | some i => [strL "**Impact:** " ++ i] | none => [])
  ++ (match m.source with | some s => [strL "**Source:** " ++ s] | none => [])
  ++ (match details with
      | some d => [[], strL "<details>"] ++ d ++ [strL "</details>"]
      | none => [])

/-- markdown.py lines 76-99, `_create_new_session_file` (as lines; the
final empty line is the trailing `+ "\n"`). -/
def createNewLines (m : Mem) (dateStr now : Line) (secLines : List Line) :
    List Line :=
  [strL "---",
   strL "project: " ++ m.project,
   strL "sources: ["
     ++ joinComma (match m.source with | some s => [s] | none => []) ++ [']'],
   strL "created: " ++ now,
   strL "tags: [" ++ joinComma (sortL m.tags) ++ [']'],
   strL "---",
   [],
   strL "# " ++ dateStr ++ strL " Session",
   []]
  ++ (match m.category with
      | some c => [strL "## " ++ CATEGORY_HEADINGS c, []]
      | none => [])
  ++ secLines ++ [[]]

/-- markdown.py lines 102-113, `_append_to_session_file`:
`updated_frontmatter + "\n" + updated_body` as line lists. -/
def appendToSessionLines (content : List Line) (m : Mem) (secLines : List Line) :
    List Line :=
  let fm := (splitFrontmatter content).1
  let body := (splitFrontmatter content).2
  updateFrontmatter fm m.tags m.source ++ insertSectionInBody body m.category secLines

/-- markdown.py lines 43-73, `write_session_memory`: create the session
file or append to the existing content. -/
def writeSessionFile (existing : Option (List Line)) (m : Mem) (dateStr now : Line)
    (details : Option (List Line)) : List Line :=
  let sec := renderSection m details
  match existing with
  | none => createNewLines m dateStr now sec
  | some content => appendToSessionLines content m sec

/-! ## A backtracking regex engine for redaction.py / security.py

Python's `re` is an external library; the engine below implements the
backtracking leftmost-match semantics the redaction pipeline relies on:
alternation prefers the left branch, `*`/`+` are greedy, `*?` is lazy,
and a star never repeats an empty match.  `fuel` bounds the recursion
depth; the call sites pass a bound that the patterns in this repository
(whose starred sub-patterns all consume input) never exhaust. -/

inductive RE where
  | eps : RE
  | cls : (Char → Bool) → RE
  | cat : RE → RE → RE
  | alt : RE → RE → RE
  | starG : RE → RE
  | starL : RE → RE

def reSize : RE → Nat
  | .eps => 1
  | .cls _ => 1
  | .cat a b => reSize a + reSize b + 1
  | .alt a b => reSize a + reSize b + 1
  | .starG a => reSize a + 1
  | .starL a => reSize a + 1

/-- Try to match `r` at the head of `s`; on success run the continuation
`k` on the remainder.  Branch order realises Python's priorities. -/
def reMatch : Nat → RE → List Char → (List Char → Option (List Char)) →
    Option (List Char)
  | 0, _, _, _ => none
  | fuel + 1, r, s, k =>
    match r with
    | .eps => k s
    | .cls p =>
      match s with
      | [] => none
      | c :: cs => if p c then k cs else none
    | .cat a b => reMatch fuel a s (fun s' => reMatch fuel b s' k)
    | .alt a b => (reMatch fuel a s k).orElse (fun _ => reMatch fuel b s k)
    | .starG a =>
      (reMatch fuel a s (fun s' =>
        if s'.length < s.length then reMatch fuel (.starG a) s' k else none)).orElse
        (fun _ => k s)
    | .starL a =>
      (k s).orElse (fun _ =>
        reMatch fuel a s (fun s' =>
          if s'.length < s.length then reMatch fuel (.starL a) s' k else none))

/-- Recursion-depth bound for `reMatch`: between two unfoldings of the
same star the input strictly shrinks, and in between the engine descends
structurally, so this product is never exhausted. -/
def fuelFor (r : RE) (s : List Char) : Nat :=
  (reSize r + 2) * (s.length + 2) * (s.length + 2)

/-- The remainder after the preferred match of `r` at the start of `s`. -/
def matchHere (r : RE) (s : List Char) : Option (List Char) :=
  reMatch (fuelFor r s) r s some

/-- One pass of Python `pattern.sub(repl, s)`: scan left to right, replace
each non-overlapping match, resume after the replaced text (an empty
match is replaced and the scan advances one character). -/
def reSubStep (r : RE) (repl : Line) (next : Line → Line) (s : Line) : Line :=
  match matchHere r s with
  | some s' =>
    if s'.length < s.length then repl ++ next s'
    else
      match s with
      | [] => repl
      | c :: cs => repl ++ c :: next cs
  | none =>
    match s with
    | [] => []
    | c :: cs => c :: next cs

def reSubGo (r : RE) (repl : Line) : Nat → Line → Line
  | 0, s => s
  | f + 1, s => reSubStep r repl (reSubGo r repl f) s

def reSub (r : RE) (repl : Line) (s : Line) : Line := reSubGo r repl (s.length + 1) s

/-- Does `r` match anywhere in `s`?  (Same scan as `reSubGo`.) -/
def reFindStep (r : RE) (next : Line → Bool) (s : Line) : Bool :=
  match matchHere r s with
  | some _ => true
  | none =>
    match s with
    | [] => false
    | _ :: cs => next cs

def reFindGo (r : RE) : Nat → Line → Bool
  | 0, _ => false
  | f + 1, s => reFindStep r (reFindGo r f) s

def reFind (r : RE) (s : Line) : Bool := reFindGo r (s.length + 1) s

/-- Case-insensitive single character (layer 2 compiles with
re.IGNORECASE). -/
def ci (c : Char) : RE := .cls (fun d => d.toLower = c.toLower)

/-- Case-insensitive literal string. -/
def lit (s : String) : RE := (s.toList.map ci).foldr .cat .eps

/-- Case-sensitive literal string (REDACTED_TAG_PATTERN has no flags
beyond DOTALL). -/
def litCS (s : String) : RE :=
  (s.toList.map (fun c => RE.cls (fun d => d = c))).foldr .cat .eps

/-- `.` without DOTALL. -/
def anyNotNl : RE := .cls (fun c => c ≠ '\n')

/-- `.` with DOTALL. -/
def anyC : RE := .cls (fun _ => true)

def plusG (r : RE) : RE := .cat r (.starG r)

def optG (r : RE) : RE := .alt r .eps

def repN (r : RE) : Nat → RE
  | 0 => .eps
  | n + 1 => .cat r (repN r n)

/-- ASCII `[a-zA-Z0-9]` (also `[0-9A-Z]` under IGNORECASE). -/
def isAlnum (c : Char) : Bool := c.isAlpha || c.isDigit

def wsRE : RE := .cls pySpace

/-- The common suffix `\s*[:=]\s*["']?.+` of the field patterns. -/
def fieldSuffix : RE :=
  .cat (.starG wsRE)
    (.cat (.cls (fun c => c = ':' || c = '='))
      (.cat (.starG wsRE)
        (.cat (optG (.cls (fun c => c = '"' || c = '\'')))
          (plusG anyNotNl))))

/-- redaction.py lines 17-28, SENSITIVE_PATTERNS, compiled (safe_compile_pattern
succeeds on each of these literals and applies re.IGNORECASE). -/
def SENSITIVE : List RE :=
  [ .cat (lit "sk_live_") (plusG (.cls isAlnum)),
    .cat (lit "sk_test_") (plusG (.cls isAlnum)),
    .cat (lit "ghp_") (plusG (.cls isAlnum)),
    .cat (lit "AKIA") (repN (.cls isAlnum) 16),
    .cat (lit "xoxb-") (plusG (.cls (fun c => isAlnum c || c = '-'))),
    .cat (lit "-----BEGIN ") (.cat (optG (lit "RSA ")) (lit "PRIVATE KEY-----")),
    .cat (lit "eyJ")
      (.cat (plusG (.cls (fun c => isAlnum c || c = '_' || c = '-')))
        (.cat (lit ".")
          (.cat (lit "eyJ")
            (plusG (.cls (fun c => isAlnum c || c = '_' || c = '-')))))),
    .cat (lit "password") fieldSuffix,
    .cat (lit "secret") fieldSuffix,
    .cat (.cat (lit "api") (.cat (optG (.cls (fun c => c = '_' || c = '-'))) (lit "key")))
      fieldSuffix ]

/-- redaction.py line 31: `<redacted>.*?</redacted>` with re.DOTALL. -/
def tagRE : RE := .cat (litCS "<redacted>") (.cat (.starL anyC) (litCS "</redacted>"))

/-- redaction.py lines 53-58: substitute the tag pattern repeatedly until
a fixpoint.  Each effective round replaces at least 21 characters by 10,
so the string strictly shrinks and `length + 1` rounds reach the fixpoint. -/
def layer1Go : Nat → Line → Line
  | 0, s => s
  | f + 1, s =>
    let s' := reSub tagRE (strL "[REDACTED]") s
    if s' = s then s else layer1Go f s'

def layer1 (s : Line) : Line := layer1Go (s.length + 1) s

/-- Python str.replace (single left-to-right pass, no rescanning of the
replacement); the pattern is `p :: ps` so each step consumes at least the
head character, and fuel `l.length` is enough. -/
def strReplaceGo (p : Char) (ps repl : Line) : Nat → Line → Line
  | 0, l => l
  | _ + 1, [] => []
  | f + 1, c :: cs =>
    if (p :: ps).isPrefixOf (c :: cs) then
      repl ++ strReplaceGo p ps repl f (cs.drop ps.length)
    else c :: strReplaceGo p ps repl f cs

def strReplace (p : Char) (ps repl : Line) (l : Line) : Line :=
  strReplaceGo p ps repl l.length l

/-! ### security.py safe_compile_pattern — a parser for the regex subset

security.py wraps `re.compile(pattern, re.IGNORECASE)` in try/except and
returns None for invalid patterns.  The parser below covers literals,
escapes (\d \s \w, escaped punctuation), `.`, `|`, groups `(...)` and
`(?:...)`, postfix `*` `+` `?` with lazy variants, `{n}` repetition and
character classes with ranges and negation; any other construct and any
malformed pattern — unbalanced parentheses, unclosed classes, dangling
postfix operators, bad escapes — yields none, as re.compile raises
re.error there. -/

def toggleCase (c : Char) : Char :=
  if c.isUpper then c.toLower else if c.isLower then c.toUpper else c

/-- Wrap a predicate for re.IGNORECASE. -/
def ciPred (p : Char → Bool) : Char → Bool := fun c => p c || p (toggleCase c)

def escPred : Char → Option (Char → Bool)
  | 'd' => some Char.isDigit
  | 's' => some pySpace
  | 'w' => some (fun c => isAlnum c || c = '_')
  | _ => none

/-- Items of a character class up to the closing `]`. -/
def parseClassBody : Nat → Line → (Char → Bool) → Option ((Char → Bool) × Line)
  | 0, _, _ => none
  | _, [], _ => none
  | _ + 1, ']' :: rest, acc => some (acc, rest)
  | f + 1, '\\' :: e :: rest, acc =>
    match escPred e with
    | some p => parseClassBody f rest (fun c => acc c || p c)
    | none =>
      if isAlnum e then none
      else parseClassBody f rest (fun c => acc c || c = e)
  | f + 1, a :: '-' :: b :: rest, acc =>
    if b = ']' then parseClassBody f (']' :: rest) (fun c => acc c || c = a || c = '-')
    else if b < a then none
    else parseClassBody f rest (fun c => acc c || (a ≤ c && c ≤ b))
  | f + 1, a :: rest, acc => parseClassBody f rest (fun c => acc c || c = a)

/-- Digits of a `{n}` repetition (value built left to right). -/
def parseNumGo : Nat → Line → Nat → Option (Nat × Line)
  | 0, _, _ => none
  | _ + 1, [], _ => none
  | f + 1, c :: rest, acc =>
    if c.isDigit then
      let acc' := acc * 10 + (c.toNat - '0'.toNat)
      match rest with
      | d :: _ => if d.isDigit then parseNumGo f rest acc' else some (acc', rest)
      | [] => some (acc', rest)
    else none

/-- The grammar level the recursive-descent parser is at: alternation,
concatenation, postfix operator, or atom. -/
inductive PMode where
  | alt
  | cat
  | post
  | atom

/-- The recursive-descent parser, one function over the four grammar
levels so the recursion is structural on the fuel; every recursive call
burns one unit.  Each fuel unit either descends one grammar level
(alt → cat → post → atom, at most three levels without consuming input)
or consumes at least one input character, so `4 * length + 8` units are
ample for every pattern the parser accepts. -/
def parseGo : Nat → PMode → Line → Option (RE × Line)
  | 0, _, _ => none
  | f + 1, .alt, s =>
    match parseGo f .cat s with
    | none => none
    | some (r, rest) =>
      match rest with
      | '|' :: rest' =>
        match parseGo f .alt rest' with
        | some (r', rest'') => some (.alt r r', rest'')
        | none => none
      | _ => some (r, rest)
  | f + 1, .cat, s =>
    match s with
    | [] => some (.eps, [])
    | ')' :: _ => some (.eps, s)
    | '|' :: _ => some (.eps, s)
    | _ =>
      match parseGo f .post s with
      | none => none
      | some (r, rest) =>
        match parseGo f .cat rest with
        | some (r', rest') => some (.cat r r', rest')
        | none => none
  | f + 1, .post, s =>
    match parseGo f .atom s with
    | none => none
    | some (r, rest) =>
      match rest with
      | '*' :: '?' :: rest' => some (.starL r, rest')
      | '*' :: rest' => some (.starG r, rest')
      | '+' :: '?' :: rest' => some (.cat r (.starL r), rest')
      | '+' :: rest' => some (plusG r, rest')
      | '?' :: '?' :: rest' => some (.alt .eps r, rest')
      | '?' :: rest' => some (optG r, rest')
      | '{' :: rest' =>
        match parseNumGo (rest'.length + 1) rest' 0 with
        | some (n, '}' :: rest'') => some (repN r n, rest'')
        | _ => some (r, rest)
      | _ => some (r, rest)
  | f + 1, .atom, s =>
    match s with
    | [] => none
    | '(' :: '?' :: ':' :: rest =>
      match parseGo f .alt rest with
      | some (r, ')' :: rest') => some (r, rest')
      | _ => none
    | '(' :: '?' :: _ => none
    | '(' :: rest =>
      match parseGo f .alt rest with
      | some (r, ')' :: rest') => some (r, rest')
      | _ => none
    | '[' :: '^' :: rest =>
      match parseClassBody (rest.length + 1) rest (fun _ => false) with
      | some (p, rest') => some (.cls (ciPred (fun c => ¬ p c)), rest')
      | none => none
    | '[' :: rest =>
      match parseClassBody (rest.length + 1) rest (fun _ => false) with
      | some (p, rest') => some (.cls (ciPred p), rest')
      | none => none
    | '\\' :: e :: rest =>
      match escPred e with
      | some p => some (.cls p, rest)
      | none => if isAlnum e then none else some (.cls (fun c => c = e), rest)
    | '.' :: rest => some (anyNotNl, rest)
    | ')' :: _ => none
    | '|' :: _ => none
    | '*' :: _ => none
    | '+' :: _ => none
    | '?' :: _ => none
    | '^' :: _ => none
    | '$' :: _ => none
    | c :: rest => some (ci c, rest)

def parseAlt (f : Nat) (s : Line) : Option (RE × Line) := parseGo f .alt s

/-- security.py lines 93-120, `safe_compile_pattern`: compile with
re.IGNORECASE, returning none when re.compile raises. -/
def safeCompile (pat : Line) : Option RE :=
  match parseAlt (4 * pat.length + 8) pat with
  | some (r, []) => some r
  | _ => none

/-- One step of the layer-2/3 loop in redaction.py lines 65-69: apply a
compiled pattern, skip a pattern that compiled to None. -/
def redactStep (acc : Line) (o : Option RE) : Line :=
  match o with
  | some r => reSub r (strL "[REDACTED]") acc
  | none => acc

/-- redaction.py lines 34-71, `redact`: layer 1 (tag pairs to fixpoint),
orphan-tag cleanup, then one `sub` per compiled pattern — the built-in
patterns (which safe_compile_pattern accepts) followed by the extra
patterns, skipping those that compile to none. -/
def redactM (text : Line) (extra : List Line) : Line :=
  let t1 := layer1 text
  let t2 := strReplace '<' (strL "redacted>") [] t1
  let t3 := strReplace '<' (strL "/redacted>") [] t2
  let pats := SENSITIVE.map some ++ extra.map safeCompile
  pats.foldl redactStep t3

/-! ## core.py — orchestrator state, save, delete, reindex -/

/-- A relational row (memory/db.py is an external store; rows carry the
public id, the internal ordinal and the record). -/
structure DBRow where
  rowid : Nat
  id : Line
  mem : Mem
  details : Option (List Line)

/-- The three projections `save` maintains. -/
structure MemState where
  mirror : List (Line × List Line)
  rows : List DBRow
  vectors : List (Nat × List ℚ)

def lookupFile (mirror : List (Line × List Line)) (p : Line) : Option (List Line) :=
  (mirror.find? (fun kv => kv.1 == p)).map (fun kv => kv.2)

def setFile (mirror : List (Line × List Line)) (p : Line) (content : List Line) :
    List (Line × List Line) :=
  match mirror with
  | [] => [(p, content)]
  | kv :: rest => if kv.1 = p then (p, content) :: rest else kv :: setFile rest p content

/-- core.py lines 171-179, `_merge_tags`: append the extra tags whose
lowercase form is not yet present (case-insensitive, order-preserving). -/
def mergeTags (existing extra : List Line) : List Line :=
  extra.foldl
    (fun acc tag =>
      if acc.any (fun t => t.map Char.toLower == tag.map Char.toLower) then acc
      else acc ++ [tag])
    existing

/-- enrichment/base.py lines 9-13, `normalize_tag`: strip, drop leading
`#`, collapse whitespace runs to `-`, keep only `[a-zA-Z0-9._-]`, lower. -/
def collapseWs : Nat → Line → Line
  | 0, s => s
  | _, [] => []
  | f + 1, c :: cs =>
    if pySpace c then '-' :: collapseWs f (cs.dropWhile pySpace)
    else c :: collapseWs f cs

def normalizeTag (t : Line) : Line :=
  let base := (stripL t).dropWhile (fun c => c = '#')
  ((collapseWs (base.length + 1) base).filter
    (fun c => isAlnum c || c = '.' || c = '_' || c = '-')).map Char.toLower

/-- enrichment/base.py lines 16-27, `dedupe_tags`: normalize, drop empty
and already-seen tags, stop once `maxTags` are collected. -/
def dedupeTagsGo (maxTags : Nat) : List Line → List Line → List Line
  | [], acc => acc
  | t :: ts, acc =>
    let n := normalizeTag t
    if n.isEmpty || acc.contains n then dedupeTagsGo maxTags ts acc
    else if maxTags ≤ acc.length + 1 then acc ++ [n]
    else dedupeTagsGo maxTags ts (acc ++ [n])

def dedupeTags (tags : List Line) (maxTags : Nat) : List Line :=
  dedupeTagsGo maxTags tags []

/-- The raw save input (models.RawMemoryInput fields `save` touches). -/
structure RawMem where
  title : Line
  what : Line
  why : Option Line
  impact : Option Line
  tags : List Line
  category : Option Category
  source : Option Line
  details : Option Line

/-- Multi-line detail strings become their line lists for the writer. -/
def splitNl (l : Line) : List Line := splitOnChar '\n' l

/-- core.py lines 220-226: redact every text field of the input. -/
def redactRaw (raw : RawMem) (patterns : List Line) : RawMem :=
  { raw with
    what := redactM raw.what patterns
    why := raw.why.map (fun w => redactM w patterns)
    impact := raw.impact.map (fun i => redactM i patterns)
    details := raw.details.map (fun d => redactM d patterns) }

/-- core.py lines 229-247: the optional enrichment step — tags after
enrichment plus the warning labels.  An unconfigured provider or a
provider fault leaves the tags unchanged with a warning. -/
def enrichStepF (enrichFlag : Bool) (enrichProv : Option (Except Unit (List Line)))
    (tags : List Line) : List Line × List Line :=
  if enrichFlag then
    match enrichProv with
    | none => (tags, [strL "enrichment-unconfigured"])
    | some (.error _) => (tags, [strL "enrichment-failed"])
    | some (.ok ts) =>
      let enriched := dedupeTags ts 8
      (if enriched.isEmpty then tags else mergeTags tags enriched, [])
  else (tags, [])

/-- core.py line 251, `Memory.from_raw`, restricted to the fields the
markdown writer reads. -/
def saveMem (raw1 : RawMem) (tags1 : List Line) (project : Line) : Mem :=
  { title := raw1.title, what := raw1.what, why := raw1.why, impact := raw1.impact,
    source := raw1.source, tags := tags1, category := raw1.category,
    project := project }

def savePath (project today : Line) : Line :=
  project ++ '/' :: (today ++ strL "-session.md")

/-- core.py lines 199-279, `MemoryService.save`: redact the text fields;
optionally enrich tags, catching any provider fault with a warning;
write the mirror file; insert the Index row; then best-effort embed +
`_ensure_vectors` + vector insert, catching any fault or dimension
mismatch with a warning.  Collaborator results, generated id, ordinal
and timestamps enter as parameters.  Returns the new state, the warning
labels, and the `{id, file_path}` result. -/
def saveM (st : MemState) (patterns : List Line) (enrichFlag : Bool)
    (enrichProv : Option (Except Unit (List Line))) (embedRes : Except Unit (List ℚ))
    (ensureOk : Bool) (raw : RawMem) (project today now newId : Line)
    (newRowid : Nat) : MemState × List Line × (Line × Line) :=
  let raw1 := redactRaw raw patterns
  let es := enrichStepF enrichFlag enrichProv raw1.tags
  let m := saveMem raw1 es.1 project
  let filePath := savePath project today
  let detailLines := raw1.details.map splitNl
  let newContent := writeSessionFile (lookupFile st.mirror filePath) m today now detailLines
  let st1 : MemState := { st with mirror := setFile st.mirror filePath newContent }
  let st2 : MemState := { st1 with rows := st1.rows ++ [⟨newRowid, newId, m, detailLines⟩] }
  let embedStep : MemState × List Line :=
    match embedRes with
    | .error _ => (st2, [strL "embedding-failed"])
    | .ok v =>
      if ensureOk then ({ st2 with vectors := st2.vectors ++ [(newRowid, v)] }, [])
      else (st2, [strL "dimension-mismatch"])
  (embedStep.1, es.2 ++ embedStep.2, (newId, filePath))

/-- core.py lines 428-437 `MemoryService.delete`, delegating to the Index.
Modelled from the spec: memory/db.py is not under src/; §4.1 prefix
deletion (one match deletes, zero is not-found, several raise
AmbiguousIdFault) and §3 "deletion removes the relational row and any
vector row but never touches the mirror". -/
def deleteM (st : MemState) (pfx : Line) : Except Unit (MemState × Bool) :=
  match st.rows.filter (fun r => pfx.isPrefixOf r.id) with
  | [] => .ok (st, false)
  | [r] =>
    .ok ({ mirror := st.mirror,
           rows := st.rows.filter (fun x => x.rowid ≠ r.rowid),
           vectors := st.vectors.filter (fun v => v.1 ≠ r.rowid) }, true)
  | _ => .error ()

/-- core.py lines 462-475: the per-record re-embedding loop of `reindex`.
There is no try/except around `self.embedding_provider.embed(embed_text)`:
the first failing record propagates its fault. -/
def reindexLoop (embedFn : Line → Except Unit (List ℚ)) :
    List (Nat × Line) → Except Unit Unit
  | [] => .ok ()
  | (_, text) :: rest =>
    match embedFn text with
    | .error e => .error e
    | .ok _ => reindexLoop embedFn rest

/-- core.py lines 439-486, `MemoryService.reindex`: probe the provider for
the dimension, drop and recreate the vector table, re-embed every row
(aborting on the first per-record fault), and return
`{count: total, dim, model}`. -/
def reindexM (embedFn : Line → Except Unit (List ℚ)) (modelName : Line)
    (memories : List (Nat × Line)) : Except Unit (Nat × Nat × Line) :=
  match embedFn (strL "dimension probe") with
  | .error e => .error e
  | .ok probe =>
    match reindexLoop embedFn memories with
    | .error e => .error e
    | .ok _ => .ok (memories.length, probe.length, modelName)

/-- Concrete embedding provider that faults on one record's text. -/
def failingEmbed : Line → Except Unit (List ℚ) :=
  fun t => if t = strL "boom" then .error () else .ok [1, 2]

/-- Concrete raw input for the save witness. -/
def raw0 : RawMem :=
  { title := strL "T", what := strL "W", why := none, impact := none,
    tags := [], category := none, source := none, details := none }

/-! ## Observations on mirror files used by the claims -/

/-- The canonical ranks of the category headings of a file, in line order. -/
def ranksOf (L : List Line) : List Nat := L.filterMap lineRank

/-- The category headings appear in canonical order. -/
def RanksSorted (L : List Line) : Prop := (ranksOf L).Pairwise (· ≤ ·)

/-- The sequence of right-trimmed non-blank lines of a file: the section
content seen up to trailing whitespace and blank separator lines. -/
def sigOf (L : List Line) : List Line :=
  (L.map rtrimL).filter (fun l => !(isBlank l))

/-- A minimal record with the given category, for the concrete
insertion-order scenario of the spec (§8). -/
def exMem (c : Category) (t : String) : Mem :=
  { title := strL t, what := strL "w", why := none, impact := none,
    source := none, tags := [], category := some c, project := strL "p" }

/-- Write `learning`, then `decision`, then `pattern` into the same
session file. -/
def exFile1 : List Line :=
  writeSessionFile none (exMem .learning "L") (strL "2026-01-22") (strL "now") none

def exFile2 : List Line :=
  writeSessionFile (some exFile1) (exMem .decision "D") (strL "2026-01-22") (strL "now") none

def exFile3 : List Line :=
  writeSessionFile (some exFile2) (exMem .pattern "P") (strL "2026-01-22") (strL "now") none

/-- A tag that frontmatter round-trips exactly: nonempty, no surrounding
whitespace, and free of the delimiter characters of the `tags: [...]`
line (comma, brackets, newline). -/
abbrev goodTag (t : Line) : Prop :=
  t ≠ [] ∧ stripL t = t ∧ ',' ∉ t ∧ '[' ∉ t ∧ ']' ∉ t ∧ '\n' ∉ t

/-- A record carrying only tags, for the two-save tag-merge scenario. -/
def tagMem (tags : List Line) : Mem :=
  { title := strL "T", what := strL "w", why := none, impact := none,
    source := none, tags := tags, category := none, project := strL "p" }

def tagsFile1 (t1 : List Line) : List Line :=
  writeSessionFile none (tagMem t1) (strL "2026-01-22") (strL "now") none

def tagsFile2 (t1 t2 : List Line) : List Line :=
  writeSessionFile (some (tagsFile1 t1)) (tagMem t2) (strL "2026-01-22") (strL "now") none

/-! ### Lemmas about the ranker -/

theorem normalizeScores_eq_spec (rs : List SR) :
    normalizeScores rs = specNormalize rs := by
  unfold normalizeScores specNormalize
  by_cases hm : maxScore rs = 0
  · simp [hm]
  · by_cases hp : 0 < maxScore rs
    · simp [hm, hp]
    · have hneg : ¬ (0 < maxScore rs) := hp
      simp [hm, hneg]

theorem normalizeScores_map_id (rs : List SR) :
    (normalizeScores rs).map SR.id = rs.map SR.id := by
  simp [normalizeScores, List.map_map]

theorem lookupScore_cons (y : SR) (ys : List SR) (q : String) :
    lookupScore (y :: ys) q = if y.id = q then some y.score else lookupScore ys q := by
  by_cases h : y.id = q
  · rw [lookupScore, List.find?_cons_of_pos _ (by simpa using h), if_pos h]
    rfl
  · rw [lookupScore, List.find?_cons_of_neg _ (by simpa using h), if_neg h]
    rfl

theorem dictSet_append (acc : List SR) (x : SR) (h : ∀ y ∈ acc, y.id ≠ x.id) :
    dictSet acc x = acc ++ [x] := by
  induction acc with
  | nil => rfl
  | cons y ys ih =>
    have hy : y.id ≠ x.id := h y (by simp)
    simp [dictSet, hy]
    exact ih (fun z hz => h z (by simp [hz]))

theorem foldl_dictSet (fw : ℚ) (f : List SR) :
    ∀ acc : List SR, (∀ r ∈ f, ∀ y ∈ acc, y.id ≠ r.id) → (f.map SR.id).Nodup →
      f.foldl (fun acc r => dictSet acc { r with score := fw * r.score }) acc
        = acc ++ f.map (fun r => { r with score := fw * r.score }) := by
  induction f with
  | nil => intro acc _ _; simp
  | cons r f ih =>
    intro acc hdisj hnd
    have hnd2 : (∀ x ∈ f, ¬ x.id = r.id) ∧ (f.map SR.id).Nodup := by
      simpa using hnd
    have hstep : dictSet acc { r with score := fw * r.score } = acc ++ [{ r with score := fw * r.score }] :=
      dictSet_append acc _ (fun y hy => hdisj r (by simp) y hy)
    have hdisj' : ∀ s ∈ f, ∀ y ∈ acc ++ [{ r with score := fw * r.score }], y.id ≠ s.id := by
      intro s hs y hy
      rcases List.mem_append.mp hy with hya | hyr
      · exact hdisj s (by simp [hs]) y hya
      · have hyeq : y = { r with score := fw * r.score } := by simpa using hyr
        subst hyeq
        intro hcontra
        exact hnd2.1 s hs (by simpa using hcontra.symm)
    calc (r :: f).foldl (fun acc r => dictSet acc { r with score := fw * r.score }) acc
        = f.foldl (fun acc r => dictSet acc { r with score := fw * r.score })
            (acc ++ [{ r with score := fw * r.score }]) := by
          simp [List.foldl_cons, hstep]
      _ = (acc ++ [{ r with score := fw * r.score }])
            ++ f.map (fun r => { r with score := fw * r.score }) := ih _ hdisj' hnd2.2
      _ = acc ++ (r :: f).map (fun r => { r with score := fw * r.score }) := by simp

theorem combineOpt_none_right (a : Option ℚ) : combineOpt a none = a := by
  cases a <;> rfl

theorem lookup_dictAdd (vw : ℚ) (acc : List SR) (r : SR) (q : String) :
    lookupScore (dictAdd vw acc r) q =
      if r.id = q then combineOpt (lookupScore acc q) (some (vw * r.score))
      else lookupScore acc q := by
  induction acc with
  | nil =>
    by_cases hq : r.id = q
    · rw [if_pos hq]
      show lookupScore [{ r with score := vw * r.score }] q = _
      rw [lookupScore_cons, if_pos hq]
      rfl
    · rw [if_neg hq]
      show lookupScore [{ r with score := vw * r.score }] q = lookupScore [] q
      rw [lookupScore_cons, if_neg hq]
  | cons y ys ih =>
    by_cases hyr : y.id = r.id
    · simp only [dictAdd, if_pos hyr]
      by_cases hq : r.id = q
      · have hyq : y.id = q := hyr.trans hq
        rw [lookupScore_cons, if_pos hyq, if_pos hq, lookupScore_cons, if_pos hyq]
        rfl
      · have hyq : ¬ y.id = q := fun h => hq (hyr.symm.trans h)
        rw [lookupScore_cons, if_neg hyq, if_neg hq, lookupScore_cons, if_neg hyq]
    · simp only [dictAdd, if_neg hyr]
      by_cases hyq : y.id = q
      · have hq : ¬ r.id = q := fun h => hyr (hyq.trans h.symm)
        rw [lookupScore_cons, if_pos hyq, if_neg hq, lookupScore_cons, if_pos hyq]
      · rw [lookupScore_cons, if_neg hyq, ih]
        by_cases hq : r.id = q
        · rw [if_pos hq, if_pos hq, lookupScore_cons, if_neg hyq]
        · rw [if_neg hq, if_neg hq, lookupScore_cons, if_neg hyq]

theorem lookup_foldl_dictAdd (vw : ℚ) (v : List SR) :
    ∀ base : List SR, (v.map SR.id).Nodup → ∀ q : String,
      lookupScore (v.foldl (fun acc r => dictAdd vw acc r) base) q
        = combineOpt (lookupScore base q)
            ((v.find? (fun r => r.id == q)).map (fun r => vw * r.score)) := by
  induction v with
  | nil => intro base _ q; simp [combineOpt_none_right]
  | cons r v ih =>
    intro base hnd q
    have hnd2 : (∀ x ∈ v, ¬ x.id = r.id) ∧ (v.map SR.id).Nodup := by
      simpa using hnd
    have hnd' : (v.map SR.id).Nodup := hnd2.2
    by_cases hq : r.id = q
    · have hvnone : v.find? (fun r => r.id == q) = none := by
        rw [List.find?_eq_none]
        intro x hx
        simp only [beq_iff_eq]
        intro hxq
        exact hnd2.1 x hx (hxq.trans hq.symm)
      calc lookupScore ((r :: v).foldl (fun acc r => dictAdd vw acc r) base) q
          = combineOpt (lookupScore (dictAdd vw base r) q)
              ((v.find? (fun r => r.id == q)).map (fun r => vw * r.score)) := by
            simpa using ih (dictAdd vw base r) hnd' q
        _ = lookupScore (dictAdd vw base r) q := by
            simp [hvnone, combineOpt_none_right]
        _ = combineOpt (lookupScore base q) (some (vw * r.score)) := by
            simp [lookup_dictAdd, hq]
        _ = combineOpt (lookupScore base q)
              (((r :: v).find? (fun r => r.id == q)).map (fun r => vw * r.score)) := by
            rw [List.find?_cons_of_pos _ (by simpa using hq)]
            rfl
    · calc lookupScore ((r :: v).foldl (fun acc r => dictAdd vw acc r) base) q
          = combineOpt (lookupScore (dictAdd vw base r) q)
              ((v.find? (fun r => r.id == q)).map (fun r => vw * r.score)) := by
            simpa using ih (dictAdd vw base r) hnd' q
        _ = combineOpt (lookupScore base q)
              ((v.find? (fun r => r.id == q)).map (fun r => vw * r.score)) := by
            rw [lookup_dictAdd, if_neg hq]
        _ = combineOpt (lookupScore base q)
              (((r :: v).find? (fun r => r.id == q)).map (fun r => vw * r.score)) := by
            rw [List.find?_cons_of_neg _ (by simpa using hq)]

theorem lookupScore_map_weight (fw : ℚ) (f : List SR) (q : String) :
    lookupScore (f.map (fun r => { r with score := fw * r.score })) q
      = (f.find? (fun r => r.id == q)).map (fun r => fw * r.score) := by
  induction f with
  | nil => rfl
  | cons y ys ih =>
    by_cases h : y.id = q
    · rw [List.map_cons, lookupScore_cons,
        if_pos (show ({ y with score := fw * y.score } : SR).id = q from h),
        List.find?_cons_of_pos _ (by simpa using h)]
      rfl
    · rw [List.map_cons, lookupScore_cons,
        if_neg (show ¬ ({ y with score := fw * y.score } : SR).id = q from h),
        List.find?_cons_of_neg _ (by simpa using h), ih]

/-- Characterisation of the combined score dict: the combined score of an
identifier is the weighted FTS term plus the weighted vector term, each
simply absent when the identifier is missing from that list. -/
theorem lookup_combine (f v : List SR) (fw vw : ℚ) (q : String)
    (hf : (f.map SR.id).Nodup) (hv : (v.map SR.id).Nodup) :
    lookupScore (combine f v fw vw) q
      = combineOpt ((f.find? (fun r => r.id == q)).map (fun r => fw * r.score))
                   ((v.find? (fun r => r.id == q)).map (fun r => vw * r.score)) := by
  unfold combine
  rw [foldl_dictSet fw f [] (by intro r _ y hy; cases hy) hf]
  rw [lookup_foldl_dictAdd vw v _ hv q]
  rw [List.nil_append, lookupScore_map_weight]

theorem insertDesc_perm (x : SR) (l : List SR) : (insertDesc x l).Perm (x :: l) := by
  induction l with
  | nil => exact List.Perm.refl _
  | cons y ys ih =>
    by_cases h : y.score ≤ x.score
    · simp only [insertDesc, if_pos h]
      exact List.Perm.refl _
    · simp only [insertDesc, if_neg h]
      exact (ih.cons y).trans (List.Perm.swap x y ys)

theorem mem_insertDesc {x z : SR} {l : List SR} :
    z ∈ insertDesc x l ↔ z = x ∨ z ∈ l := by
  rw [(insertDesc_perm x l).mem_iff]
  simp

theorem sorted_insertDesc (x : SR) (l : List SR) (h : SortedDesc l) :
    SortedDesc (insertDesc x l) := by
  induction l with
  | nil => simp [insertDesc, SortedDesc]
  | cons y ys ih =>
    rcases (List.pairwise_cons.mp h) with ⟨hy, hys⟩
    by_cases hcmp : y.score ≤ x.score
    · simp only [insertDesc, if_pos hcmp]
      refine List.pairwise_cons.mpr ⟨?_, h⟩
      intro z hz
      rcases List.mem_cons.mp hz with hz | hz
      · subst hz; exact hcmp
      · exact le_trans (hy z hz) hcmp
    · simp only [insertDesc, if_neg hcmp]
      refine List.pairwise_cons.mpr ⟨?_, ih hys⟩
      intro z hz
      rcases mem_insertDesc.mp hz with hz | hz
      · subst hz; exact le_of_lt (lt_of_not_le hcmp)
      · exact hy z hz

theorem sortDesc_perm (l : List SR) : (sortDesc l).Perm l := by
  induction l with
  | nil => exact List.Perm.refl _
  | cons x xs ih =>
    show (insertDesc x (sortDesc xs)).Perm (x :: xs)
    exact (insertDesc_perm x (sortDesc xs)).trans (ih.cons x)

theorem sortDesc_sorted (l : List SR) : SortedDesc (sortDesc l) := by
  induction l with
  | nil => simp [sortDesc, SortedDesc]
  | cons x xs ih => exact sorted_insertDesc x (sortDesc xs) ih

theorem filter_insertDesc (x : SR) (l : List SR) (s : ℚ) :
    (insertDesc x l).filter (fun r => r.score == s)
      = if x.score = s then x :: l.filter (fun r => r.score == s)
        else l.filter (fun r => r.score == s) := by
  induction l with
  | nil =>
    by_cases hx : x.score = s
    · rw [if_pos hx]
      show List.filter _ [x] = _
      rw [List.filter_cons_of_pos (by simpa using hx)]
    · rw [if_neg hx]
      show List.filter _ [x] = _
      rw [List.filter_cons_of_neg (by simpa using hx)]
  | cons y ys ih =>
    by_cases hcmp : y.score ≤ x.score
    · simp only [insertDesc, if_pos hcmp]
      by_cases hx : x.score = s
      · rw [if_pos hx, List.filter_cons_of_pos (by simpa using hx)]
      · rw [if_neg hx, List.filter_cons_of_neg (by simpa using hx)]
    · have hlt : x.score < y.score := lt_of_not_le hcmp
      simp only [insertDesc, if_neg hcmp]
      by_cases hy : y.score = s
      · have hx : ¬ x.score = s := fun h => absurd (h.trans hy.symm) (ne_of_lt hlt)
        rw [List.filter_cons_of_pos (by simpa using hy), ih, if_neg hx, if_neg hx,
          List.filter_cons_of_pos (by simpa using hy)]
      · rw [List.filter_cons_of_neg (by simpa using hy), ih]
        by_cases hx : x.score = s
        · rw [if_pos hx, if_pos hx, List.filter_cons_of_neg (by simpa using hy)]
        · rw [if_neg hx, if_neg hx, List.filter_cons_of_neg (by simpa using hy)]

theorem filter_sortDesc (l : List SR) (s : ℚ) :
    (sortDesc l).filter (fun r => r.score == s) = l.filter (fun r => r.score == s) := by
  induction l with
  | nil => rfl
  | cons x xs ih =>
    show (insertDesc x (sortDesc xs)).filter (fun r => r.score == s) = _
    rw [filter_insertDesc]
    by_cases hx : x.score = s
    · rw [if_pos hx, ih, List.filter_cons_of_pos (by simpa using hx)]
    · rw [if_neg hx, ih, List.filter_cons_of_neg (by simpa using hx)]

/-! ### Claim C1 and C8 theorems -/

/-- Claim C1, counterexample: the claim asserts that a zero maximum yields
all-zero normalized scores, so on the input below (FTS scores 0 and -1,
maximum 0) every combined score would be 0.  The code instead replaces a
falsy (zero) maximum by 1.0 and divides, leaving the score -1 intact, so
the identifier "b" comes out with combined score 0.3 * -1 = -3/10 ≠ 0. -/
theorem merge_results_zero_max_counterexample :
    mergeResults [⟨"a", 0, 0⟩, ⟨"b", -1, 0⟩] [] (3/10) (7/10) 5
      = [⟨"a", 0, 0⟩, ⟨"b", -(3/10), 0⟩]
    ∧ (-(3/10) : ℚ) ≠ 0 := by
  constructor
  · norm_num [mergeResults, normalizeScores, maxScore, combine, dictSet, dictAdd,
      sortDesc, insertDesc]
    simp [insertDesc]
    norm_num
  · norm_num

/-- Claim C1 (amended): the hybrid merge normalizes each list by its own
maximum where an empty list has no scores to normalize, a zero maximum
leaves scores unchanged (all-zero exactly when every score is zero), and a
negative maximum yields all-zero scores; it combines per identifier as
fw * fts_norm + vw * vec_norm with an identifier present in only one list
contributing only that weighted term; and the output is sorted descending
by combined score and truncated to limit (and is a permutation of the
combined dict before truncation when limit is large enough). -/
theorem merge_results_hybrid_merge (fts vec : List SR) (fw vw : ℚ) (limit : Nat)
    (hf : (fts.map SR.id).Nodup) (hv : (vec.map SR.id).Nodup) :
    normalizeScores fts = specNormalize fts
    ∧ normalizeScores vec = specNormalize vec
    ∧ (∀ q : String,
        lookupScore (combine (normalizeScores fts) (normalizeScores vec) fw vw) q
          = combineOpt
              (((normalizeScores fts).find? (fun r => r.id == q)).map (fun r => fw * r.score))
              (((normalizeScores vec).find? (fun r => r.id == q)).map (fun r => vw * r.score)))
    ∧ SortedDesc (mergeResults fts vec fw vw limit)
    ∧ mergeResults fts vec fw vw limit
        = (sortDesc (combine (normalizeScores fts) (normalizeScores vec) fw vw)).take limit
    ∧ (sortDesc (combine (normalizeScores fts) (normalizeScores vec) fw vw)).Perm
        (combine (normalizeScores fts) (normalizeScores vec) fw vw) := by
  refine ⟨normalizeScores_eq_spec fts, normalizeScores_eq_spec vec, ?_, ?_, rfl, sortDesc_perm _⟩
  · intro q
    exact lookup_combine _ _ fw vw q
      (by rw [normalizeScores_map_id]; exact hf)
      (by rw [normalizeScores_map_id]; exact hv)
  · exact (sortDesc_sorted _).sublist (List.take_sublist _ _)

/-- Witness for `merge_results_hybrid_merge` at concrete no-duplicate
inputs: the merged output is sorted descending by combined score. -/
theorem merge_results_hybrid_merge_witness :
    (([⟨"a", 2, 0⟩, ⟨"b", 1, 0⟩] : List SR).map SR.id).Nodup
    ∧ SortedDesc (mergeResults [⟨"a", 2, 0⟩, ⟨"b", 1, 0⟩] [⟨"b", 4, 0⟩] (3/10) (7/10) 5) :=
  ⟨by decide, (merge_results_hybrid_merge [⟨"a", 2, 0⟩, ⟨"b", 1, 0⟩] [⟨"b", 4, 0⟩]
      (3/10) (7/10) 5 (by decide) (by decide)).2.2.2.1⟩

/-- Claim C8, counterexample: two entries tie at combined score 3/10; the
entry with the later creation timestamp ("b", created 2) is ranked second,
not first — the code never consults creation timestamps. -/
theorem merge_results_tiebreak_counterexample :
    mergeResults [⟨"a", 1, 1⟩, ⟨"b", 1, 2⟩] [] (3/10) (7/10) 5
      = [⟨"a", 3/10, 1⟩, ⟨"b", 3/10, 2⟩]
    ∧ ((3 : ℚ)/10) = ((3 : ℚ)/10)
    ∧ (1 : Nat) < 2 := by
  refine ⟨?_, rfl, by decide⟩
  norm_num [mergeResults, normalizeScores, maxScore, combine, dictSet, dictAdd,
    sortDesc, insertDesc]
  simp [insertDesc]

/-- Claim C8 (amended): on exactly equal combined scores the ranker keeps
the pre-sort encounter order (FTS entries in FTS order, then vector-only
entries in vector order): the sort is stable, i.e. filtering the ranked
list to any fixed score value yields exactly the combined dict's entries
with that score, in dict insertion order.  Creation timestamps are not
consulted. -/
theorem merge_results_stable_tiebreak (fts vec : List SR) (fw vw : ℚ) (limit : Nat) (s : ℚ) :
    mergeResults fts vec fw vw limit
      = (sortDesc (combine (normalizeScores fts) (normalizeScores vec) fw vw)).take limit
    ∧ (sortDesc (combine (normalizeScores fts) (normalizeScores vec) fw vw)).filter
        (fun r => r.score == s)
      = (combine (normalizeScores fts) (normalizeScores vec) fw vw).filter
        (fun r => r.score == s) :=
  ⟨rfl, filter_sortDesc _ s⟩

/-! ### Claim C2 -/

/-- Claim C2: a fault anywhere on the vector path — an embedding provider
error, a dimension mismatch (`_ensure_vectors` false), or a vector-query
fault — is never raised to the caller: `search` falls back to the
full-text list with scores normalized to [0,1] by the list's own maximum
and truncated to `limit`, with no 0.3 weight applied in this degraded
mode. -/
theorem search_vector_fault_falls_back (o : Oracle) (vecAvail : Bool) (q : String)
    (limit : Nat)
    (h : (∃ e, o.embed q = .error e)
       ∨ (∀ v, o.embed q = .ok v →
            (o.ensureDim v.length = false
              ∨ ∃ e, o.vecSearch v (limit * 2) = .error e))) :
    searchM o vecAvail true q limit
      = (normalizeScores (o.fts q (limit * 2))).take limit := by
  cases vecAvail with
  | false => simp [searchM, hybridSearch]
  | true =>
    cases hemb : o.embed q with
    | error e => simp [searchM, hybridSearch, hemb]
    | ok v =>
      rcases h with ⟨e, he⟩ | hrest
      · rw [hemb] at he
        cases he
      · rcases hrest v hemb with hens | ⟨e, hvs⟩
        · simp [searchM, hybridSearch, hemb, hens]
        · by_cases hd : o.ensureDim v.length
          · simp [searchM, hybridSearch, hemb, hvs, hd]
          · simp [searchM, hybridSearch, hemb, hd]

/-- Witness for `search_vector_fault_falls_back`: with a concrete oracle
whose embed call faults, search degrades to the normalized truncated
full-text list. -/
theorem search_vector_fault_falls_back_witness :
    (∃ e, faultyOracle.embed "q" = .error e)
    ∧ searchM faultyOracle true true "q" 5 = [⟨"a", 1, 0⟩, ⟨"b", 1/2, 0⟩] := by
  constructor
  · exact ⟨(), rfl⟩
  · rw [search_vector_fault_falls_back faultyOracle true "q" 5 (Or.inl ⟨(), rfl⟩)]
    norm_num [normalizeScores, maxScore, faultyOracle]

/-! ### Claim C3 and C4 -/

theorem lookupFile_setFile (m : List (Line × List Line)) (p : Line) (c : List Line) :
    lookupFile (setFile m p c) p = some c := by
  induction m with
  | nil => simp [lookupFile, setFile, List.find?]
  | cons kv rest ih =>
    by_cases h : kv.1 = p
    · simp [setFile, h, lookupFile, List.find?]
    · simpa [setFile, h, lookupFile, List.find?, h] using ih

/-- Claim C3: for every save input, any enrichment or embedding
collaborator failure (including a vector dimension mismatch) is caught
and reported as a warning but does not fail the save: the mirror write
and the Index row insert still complete and save returns the record's
id and file path. -/
theorem save_best_effort (st : MemState) (patterns : List Line) (enrichFlag : Bool)
    (enrichProv : Option (Except Unit (List Line))) (embedRes : Except Unit (List ℚ))
    (ensureOk : Bool) (raw : RawMem) (project today now newId : Line)
    (newRowid : Nat) :
    (saveM st patterns enrichFlag enrichProv embedRes ensureOk raw project today now
        newId newRowid).2.2 = (newId, savePath project today)
    ∧ (saveM st patterns enrichFlag enrichProv embedRes ensureOk raw project today now
        newId newRowid).1.rows
        = st.rows ++ [⟨newRowid, newId,
            saveMem (redactRaw raw patterns)
              (enrichStepF enrichFlag enrichProv (redactRaw raw patterns).tags).1 project,
            (redactRaw raw patterns).details.map splitNl⟩]
    ∧ lookupFile (saveM st patterns enrichFlag enrichProv embedRes ensureOk raw project
        today now newId newRowid).1.mirror (savePath project today)
        = some (writeSessionFile (lookupFile st.mirror (savePath project today))
            (saveMem (redactRaw raw patterns)
              (enrichStepF enrichFlag enrichProv (redactRaw raw patterns).tags).1 project)
            today now ((redactRaw raw patterns).details.map splitNl))
    ∧ (∀ e : Unit, embedRes = .error e →
        (saveM st patterns enrichFlag enrichProv embedRes ensureOk raw project today now
            newId newRowid).1.vectors = st.vectors
        ∧ strL "embedding-failed" ∈ (saveM st patterns enrichFlag enrichProv embedRes
            ensureOk raw project today now newId newRowid).2.1)
    ∧ (∀ v, embedRes = .ok v → ensureOk = false →
        (saveM st patterns enrichFlag enrichProv embedRes ensureOk raw project today now
            newId newRowid).1.vectors = st.vectors
        ∧ strL "dimension-mismatch" ∈ (saveM st patterns enrichFlag enrichProv embedRes
            ensureOk raw project today now newId newRowid).2.1)
    ∧ (enrichFlag = true → enrichProv = some (.error ()) →
        strL "enrichment-failed" ∈ (saveM st patterns enrichFlag enrichProv embedRes
            ensureOk raw project today now newId newRowid).2.1) := by
  refine ⟨rfl, ?_, ?_, ?_, ?_, ?_⟩
  · cases embedRes with
    | error e => simp [saveM]
    | ok v => by_cases hd : ensureOk <;> simp [saveM, hd]
  · cases embedRes with
    | error e => simp [saveM, lookupFile_setFile]
    | ok v => by_cases hd : ensureOk <;> simp [saveM, hd, lookupFile_setFile]
  · intro e he
    subst he
    constructor
    · simp [saveM]
    · simp [saveM]
  · intro v hv hens
    subst hv
    subst hens
    constructor
    · simp [saveM]
    · simp [saveM]
  · intro hf hp
    subst hf
    subst hp
    simp [saveM, enrichStepF]

/-- Witness for `save_best_effort` with both collaborators faulting: the
vector table is untouched and an embedding warning is reported, while the
other conjuncts show the mirror write, row insert and return value. -/
theorem save_best_effort_witness :
    (saveM ⟨[], [], []⟩ [] true (some (.error ())) (.error ()) false raw0 (strL "p")
        (strL "2026-01-01") (strL "t") (strL "id1") 1).1.vectors = ([] : List (Nat × List ℚ))
    ∧ strL "embedding-failed" ∈ (saveM ⟨[], [], []⟩ [] true (some (.error ())) (.error ())
        false raw0 (strL "p") (strL "2026-01-01") (strL "t") (strL "id1") 1).2.1 :=
  (save_best_effort ⟨[], [], []⟩ [] true (some (.error ())) (.error ()) false raw0
      (strL "p") (strL "2026-01-01") (strL "t") (strL "id1") 1).2.2.2.1 () rfl

/-- Claim C4 (code bug): reindex does not tolerate per-record embedding
failures — there is no try/except around the per-record embed call, so
the first failing record aborts the whole rebuild with no failure
report; when no record fails, reindex returns the record count, the
probed dimension and the model identifier. -/
theorem reindex_aborts_on_first_failure :
    reindexM failingEmbed (strL "m") [(1, strL "ok"), (2, strL "boom")] = .error ()
    ∧ reindexM (fun _ => .ok [1, 2]) (strL "m") [(1, strL "ok"), (2, strL "boom")]
        = .ok (2, 2, strL "m") :=
  ⟨rfl, rfl⟩

/-! ### Lines, trimming and heading ranks (claims C5, C7) -/

theorem rtrimL_cons (c : Char) (cs : Line) :
    rtrimL (c :: cs)
      = if (rtrimL cs).isEmpty then (if pySpace c then [] else [c])
        else c :: rtrimL cs := rfl

theorem rtrimL_idem (l : Line) : rtrimL (rtrimL l) = rtrimL l := by
  induction l with
  | nil => rfl
  | cons c cs ih =>
    by_cases h : (rtrimL cs).isEmpty
    · by_cases hc : pySpace c
      · have h1 : rtrimL (c :: cs) = [] := by rw [rtrimL_cons, if_pos h, if_pos hc]
        rw [h1]
        rfl
      · have h1 : rtrimL (c :: cs) = [c] := by rw [rtrimL_cons, if_pos h, if_neg hc]
        rw [h1, rtrimL_cons, if_pos (show (rtrimL []).isEmpty = true from rfl), if_neg hc]
    · have h1 : rtrimL (c :: cs) = c :: rtrimL cs := by rw [rtrimL_cons, if_neg h]
      have h2 : ¬ ((rtrimL (rtrimL cs)).isEmpty = true) := by rw [ih]; exact h
      rw [h1, rtrimL_cons, if_neg h2, ih]

theorem rtrimL_isPre (l : Line) : rtrimL l <+: l := by
  induction l with
  | nil => exact List.prefix_refl _
  | cons c cs ih =>
    rw [rtrimL_cons]
    by_cases h : (rtrimL cs).isEmpty
    · rw [if_pos h]
      by_cases hc : pySpace c
      · simp [hc]
      · rw [if_neg hc]
        exact ⟨cs, rfl⟩
    · rw [if_neg h]
      obtain ⟨t, ht⟩ := ih
      exact ⟨t, by rw [List.cons_append, ht]⟩

theorem blank_no_h2 {l : Line} (h : isBlank l = true) : ¬ (strL "## " <+: l) := by
  intro hp
  obtain ⟨t, ht⟩ := hp
  rw [← ht] at h
  simp [isBlank, strL, pySpace] at h

theorem lineRank_blank {l : Line} (h : isBlank l = true) : lineRank l = none := by
  unfold lineRank
  rw [if_neg]
  intro hp
  exact blank_no_h2 h (List.isPrefixOf_iff_prefix.mp hp)

theorem lineRank_rtrim (l : Line) : lineRank (rtrimL l) = lineRank l := by
  by_cases hp : strL "## " <+: l
  · obtain ⟨t, ht⟩ := hp
    subst ht
    have hsp : pySpace ' ' = true := rfl
    have hnh : pySpace '#' = false := rfl
    by_cases hbt : (rtrimL t).isEmpty
    · have h1 : rtrimL (' ' :: t) = [] := by
        rw [rtrimL_cons, if_pos hbt, if_pos hsp]
      have h2 : rtrimL ('#' :: ' ' :: t) = ['#'] := by
        rw [rtrimL_cons, h1]
        simp [hnh]
      have h3 : rtrimL (strL "## " ++ t) = ['#', '#'] := by
        show rtrimL ('#' :: '#' :: ' ' :: t) = _
        rw [rtrimL_cons, h2]
        simp
      rw [h3]
      have hstrip : stripL t = [] := by
        unfold stripL
        rw [List.isEmpty_iff.mp hbt]
        rfl
      unfold lineRank
      rw [if_neg (by decide), if_pos (by simp [List.isPrefixOf_iff_prefix])]
      have hdt : (strL "## " ++ t).drop 3 = t := rfl
      rw [hdt, hstrip]
      decide
    · have h1 : rtrimL (' ' :: t) = ' ' :: rtrimL t := by
        rw [rtrimL_cons, if_neg hbt]
      have h2 : rtrimL ('#' :: ' ' :: t) = '#' :: ' ' :: rtrimL t := by
        rw [rtrimL_cons, h1]
        have : (' ' :: rtrimL t).isEmpty = false := rfl
        rw [this]
        simp
      have h3 : rtrimL (strL "## " ++ t) = strL "## " ++ rtrimL t := by
        show rtrimL ('#' :: '#' :: ' ' :: t) = _
        rw [rtrimL_cons, h2]
        rfl
      rw [h3]
      unfold lineRank
      rw [if_pos (by simp [List.isPrefixOf_iff_prefix]),
        if_pos (by simp [List.isPrefixOf_iff_prefix])]
      have hd1 : (strL "## " ++ rtrimL t).drop 3 = rtrimL t := rfl
      have hd2 : (strL "## " ++ t).drop 3 = t := rfl
      rw [hd1, hd2]
      have : stripL (rtrimL t) = stripL t := by
        unfold stripL
        rw [rtrimL_idem]
      rw [this]
  · have hp' : ¬ (strL "## " <+: rtrimL l) := fun hc => hp (hc.trans (rtrimL_isPre l))
    unfold lineRank
    rw [if_neg (fun hb => hp' (List.isPrefixOf_iff_prefix.mp hb)),
      if_neg (fun hb => hp (List.isPrefixOf_iff_prefix.mp hb))]

theorem ranksOf_cons (l : Line) (L : List Line) :
    ranksOf (l :: L) = (lineRank l).toList ++ ranksOf L := by
  unfold ranksOf
  rw [List.filterMap_cons]
  cases lineRank l <;> rfl

theorem ranksOf_append (a b : List Line) :
    ranksOf (a ++ b) = ranksOf a ++ ranksOf b :=
  List.filterMap_append a b lineRank

theorem ranksOf_rank_free {L : List Line} (h : ∀ l ∈ L, lineRank l = none) :
    ranksOf L = [] := by
  induction L with
  | nil => rfl
  | cons l ls ih =>
    rw [ranksOf_cons, h l (by simp), ih (fun x hx => h x (by simp [hx]))]
    rfl

theorem ranksOf_blank_free {L : List Line} (h : ∀ l ∈ L, isBlank l = true) :
    ranksOf L = [] :=
  ranksOf_rank_free (fun l hl => lineRank_blank (h l hl))

theorem ranksOf_rstrip (L : List Line) : ranksOf (rstripLines L) = ranksOf L := by
  unfold rstripLines
  cases hdrop : L.reverse.dropWhile isBlank with
  | nil =>
    have hall : ∀ l ∈ L, isBlank l = true := by
      intro l hl
      exact List.dropWhile_eq_nil_iff.mp hdrop l (List.mem_reverse.mpr hl)
    rw [ranksOf_blank_free hall]
    rfl
  | cons last restRev =>
    have hsplit : L.reverse = L.reverse.takeWhile isBlank ++ (last :: restRev) := by
      rw [← hdrop, List.takeWhile_append_dropWhile]
    have hbl : ranksOf (L.reverse.takeWhile isBlank) = [] := by
      refine ranksOf_blank_free ?_
      intro l hl
      exact List.mem_takeWhile_imp hl
    have hrev : ranksOf L.reverse = (lineRank last).toList ++ ranksOf restRev := by
      rw [hsplit, ranksOf_append, hbl, List.nil_append, ranksOf_cons]
    show ranksOf ((rtrimL last :: restRev).reverse) = ranksOf L
    have hrrev : ranksOf L = (ranksOf L.reverse).reverse := by
      unfold ranksOf
      rw [List.filterMap_reverse, List.reverse_reverse]
    rw [hrrev, hrev]
    unfold ranksOf
    rw [List.filterMap_reverse]
    show (ranksOf (rtrimL last :: restRev)).reverse = _
    rw [ranksOf_cons, lineRank_rtrim]
    rfl

theorem appendUnderGo_cons_pos (hline : Line) (sec : List Line) (f : Nat) (l : Line)
    (ls : List Line) (h : l = hline) :
    appendUnderGo hline sec (f + 1) (l :: ls)
      = l :: (ls.takeWhile isBlank
          ++ (ls.dropWhile isBlank).takeWhile (fun x => ¬ (strL "## ").isPrefixOf x)
          ++ [[]] ++ sec ++ appendUnderGo hline sec f
              ((ls.dropWhile isBlank).dropWhile
                (fun x => ¬ (strL "## ").isPrefixOf x))) := by
  simp only [appendUnderGo, if_pos h]

theorem appendUnderGo_cons_neg (hline : Line) (sec : List Line) (f : Nat) (l : Line)
    (ls : List Line) (h : ¬ l = hline) :
    appendUnderGo hline sec (f + 1) (l :: ls) = l :: appendUnderGo hline sec f ls := by
  simp only [appendUnderGo, if_neg h]

theorem ranksOf_appendUnderGo (hline : Line) (sec : List Line)
    (hsec : ∀ l ∈ sec, lineRank l = none) :
    ∀ (f : Nat) (L : List Line), ranksOf (appendUnderGo hline sec f L) = ranksOf L := by
  intro f
  induction f with
  | zero => intro L; cases L <;> rfl
  | succ f ih =>
    intro L
    cases L with
    | nil => rfl
    | cons l ls =>
      by_cases h : l = hline
      · have hblank : ranksOf [([] : Line)] = [] := rfl
        rw [appendUnderGo_cons_pos hline sec f l ls h, ranksOf_cons, ranksOf_append,
          ranksOf_append, ranksOf_append, ranksOf_append, hblank,
          ranksOf_rank_free hsec, ih, ranksOf_cons]
        simp only [List.nil_append, List.append_nil, List.append_assoc]
        rw [← ranksOf_append, ← ranksOf_append, List.takeWhile_append_dropWhile,
          List.takeWhile_append_dropWhile]
      · rw [appendUnderGo_cons_neg hline sec f l ls h, ranksOf_cons, ih, ranksOf_cons]

theorem findPos_cons_some {x : Line} {k : Nat} (t : Nat) (ls : List Line)
    (hr : lineRank x = some k) :
    findPos t (x :: ls) = if t < k then 0 else findPos t ls + 1 := by
  show (match lineRank x with
      | some k => if t < k then 0 else findPos t ls + 1
      | none => findPos t ls + 1) = if t < k then 0 else findPos t ls + 1
  rw [hr]

theorem findPos_cons_none {x : Line} (t : Nat) (ls : List Line)
    (hr : lineRank x = none) :
    findPos t (x :: ls) = findPos t ls + 1 := by
  show (match lineRank x with
      | some k => if t < k then 0 else findPos t ls + 1
      | none => findPos t ls + 1) = findPos t ls + 1
  rw [hr]

theorem findPos_take (t : Nat) (L : List Line) :
    ∀ l ∈ L.take (findPos t L), ∀ k, lineRank l = some k → k ≤ t := by
  induction L with
  | nil => intro l hl; simp at hl
  | cons x ls ih =>
    intro l hl k hk
    cases hr : lineRank x with
    | some k' =>
      rw [findPos_cons_some t ls hr] at hl
      by_cases hk' : t < k'
      · rw [if_pos hk'] at hl
        simp at hl
      · rw [if_neg hk', List.take_succ_cons] at hl
        rcases List.mem_cons.mp hl with rfl | hl'
        · rw [hr] at hk
          cases hk
          omega
        · exact ih l hl' k hk
    | none =>
      rw [findPos_cons_none t ls hr, List.take_succ_cons] at hl
      rcases List.mem_cons.mp hl with rfl | hl'
      · rw [hr] at hk
        cases hk
      · exact ih l hl' k hk

theorem findPos_get (t : Nat) (L : List Line) (h : findPos t L < L.length) :
    ∃ k, lineRank (L.get ⟨findPos t L, h⟩) = some k ∧ t < k := by
  induction L with
  | nil => simp at h
  | cons x ls ih =>
    by_cases hcase : ∃ k', lineRank x = some k' ∧ t < k'
    · obtain ⟨k', hr, hk'⟩ := hcase
      have hpos : findPos t (x :: ls) = 0 := by
        rw [findPos_cons_some t ls hr, if_pos hk']
      refine ⟨k', ?_, hk'⟩
      have hget : (x :: ls).get ⟨findPos t (x :: ls), h⟩
          = (x :: ls).get ⟨0, by simp⟩ := by
        congr 1
        exact Fin.ext hpos
      rw [hget]
      exact hr
    · have hpos : findPos t (x :: ls) = findPos t ls + 1 := by
        cases hr : lineRank x with
        | some k' =>
          rw [findPos_cons_some t ls hr, if_neg (fun hc => hcase ⟨k', hr, hc⟩)]
        | none => exact findPos_cons_none t ls hr
      have h' : findPos t ls < ls.length := by
        rw [hpos] at h
        simpa using h
      obtain ⟨k, hk, hkt⟩ := ih h'
      refine ⟨k, ?_, hkt⟩
      have hget : (x :: ls).get ⟨findPos t (x :: ls), h⟩ = ls.get ⟨findPos t ls, h'⟩ := by
        have hfin : (⟨findPos t (x :: ls), h⟩ : Fin (x :: ls).length)
            = ⟨findPos t ls + 1, by simpa using h'⟩ := Fin.ext hpos
        rw [hfin]
        rfl
      rw [hget]
      exact hk

theorem lineRank_heading (c : Category) :
    lineRank (strL "## " ++ CATEGORY_HEADINGS c) = some (catRank c) := by
  cases c <;> rfl

theorem ranksOf_insertNewCategory (L : List Line) (c : Category) (sec : List Line)
    (hsec : ∀ l ∈ sec, lineRank l = none) :
    ranksOf (insertNewCategory L c sec)
      = ranksOf (L.take (findPos (catRank c) L))
        ++ catRank c :: ranksOf (L.drop (findPos (catRank c) L)) := by
  have hh : ranksOf [strL "## " ++ CATEGORY_HEADINGS c, ([] : Line)] = [catRank c] := by
    rw [ranksOf_cons, lineRank_heading]
    rfl
  have hb : ranksOf [([] : Line)] = [] := rfl
  unfold insertNewCategory
  rw [ranksOf_append, ranksOf_rstrip, ranksOf_append, ranksOf_append, ranksOf_append,
    ranksOf_append, hh, hb, ranksOf_rank_free hsec]
  simp

theorem insertNewCategory_sorted (L : List Line) (c : Category) (sec : List Line)
    (hsec : ∀ l ∈ sec, lineRank l = none) (hL : RanksSorted L) :
    RanksSorted (insertNewCategory L c sec) := by
  unfold RanksSorted
  rw [ranksOf_insertNewCategory L c sec hsec]
  have hsplit : ranksOf (L.take (findPos (catRank c) L))
      ++ ranksOf (L.drop (findPos (catRank c) L)) = ranksOf L := by
    rw [← ranksOf_append, List.take_append_drop]
  have hsorted : (ranksOf (L.take (findPos (catRank c) L))
      ++ ranksOf (L.drop (findPos (catRank c) L))).Pairwise (· ≤ ·) := by
    rw [hsplit]
    exact hL
  rw [List.pairwise_append] at hsorted
  have hdropGe : ∀ b ∈ ranksOf (L.drop (findPos (catRank c) L)), catRank c < b := by
    intro b hb
    by_cases hlen : findPos (catRank c) L < L.length
    · obtain ⟨k, hk, hkt⟩ := findPos_get (catRank c) L hlen
      have hdropeq : L.drop (findPos (catRank c) L)
          = L.get ⟨findPos (catRank c) L, hlen⟩ :: L.drop (findPos (catRank c) L + 1) := by
        rw [List.get_eq_getElem, List.getElem_cons_drop]
      rw [hdropeq, ranksOf_cons, hk] at hb
      rcases List.mem_append.mp hb with hbk | hbtail
      · have : b = k := by simpa using hbk
        omega
      · have hpw : (k :: ranksOf (L.drop (findPos (catRank c) L + 1))).Pairwise (· ≤ ·) := by
          have := hsorted.2.1
          rw [hdropeq, ranksOf_cons, hk] at this
          simpa using this
        have hkb : k ≤ b := (List.pairwise_cons.mp hpw).1 b hbtail
        omega
    · have : L.drop (findPos (catRank c) L) = [] := by
        rw [List.drop_eq_nil_iff]
        omega
      rw [this] at hb
      simp [ranksOf] at hb
  refine List.pairwise_append.mpr ⟨hsorted.1, ?_, ?_⟩
  · refine List.pairwise_cons.mpr ⟨?_, hsorted.2.1⟩
    intro b hb
    exact le_of_lt (hdropGe b hb)
  · intro a ha x hx
    rcases List.mem_cons.mp hx with rfl | hxB
    · obtain ⟨l, hl, hrank⟩ := List.mem_filterMap.mp ha
      exact findPos_take _ L l hl a hrank
    · exact hsorted.2.2 a ha x hxB

/-- Claim C5: inserting a record section preserves the canonical order of
the category headings (so any insertion sequence yields canonically
ordered headings); a new category heading goes immediately before the
first existing heading of greater canonical rank — every heading before
the insertion point has rank at most the new one, and the line at the
insertion point (when it is not the end) is a heading of strictly
greater rank; and the concrete scenario learning-then-decision-then-
pattern yields Decisions before Patterns before Learnings. -/
theorem insert_section_heading_order (body : List Line) (cat : Option Category)
    (sec : List Line) (hsec : ∀ l ∈ sec, lineRank l = none)
    (hbody : RanksSorted body) :
    RanksSorted (insertSectionInBody body cat sec)
    ∧ (∀ c : Category,
        ranksOf (insertNewCategory body c sec)
          = ranksOf (body.take (findPos (catRank c) body))
            ++ catRank c :: ranksOf (body.drop (findPos (catRank c) body))
        ∧ (∀ l ∈ body.take (findPos (catRank c) body), ∀ k, lineRank l = some k →
            k ≤ catRank c)
        ∧ (∀ h : findPos (catRank c) body < body.length,
            ∃ k, lineRank (body.get ⟨findPos (catRank c) body, h⟩) = some k
              ∧ catRank c < k))
    ∧ ranksOf exFile3 = [0, 2, 4] := by
  refine ⟨?_, ?_, by decide⟩
  · cases cat with
    | none =>
      show RanksSorted (rstripLines body ++ [[]] ++ sec ++ [[]])
      unfold RanksSorted
      have hblank : ranksOf [([] : Line)] = [] := rfl
      rw [ranksOf_append, ranksOf_append, ranksOf_append, ranksOf_rstrip,
        ranksOf_rank_free hsec, hblank]
      simpa using hbody
    | some c =>
      have hform : insertSectionInBody body (some c) sec
          = if (body.any fun l => containsSub (strL "## " ++ CATEGORY_HEADINGS c) l) = true
            then appendUnderExisting body (CATEGORY_HEADINGS c) sec
            else insertNewCategory body c sec := rfl
      rw [hform]
      by_cases hex : (body.any fun l => containsSub (strL "## " ++ CATEGORY_HEADINGS c) l)
          = true
      · rw [if_pos hex]
        unfold RanksSorted appendUnderExisting appendUnder
        rw [ranksOf_append,
          ranksOf_appendUnderGo (strL "## " ++ CATEGORY_HEADINGS c) sec hsec _ body]
        have hblank : ranksOf [([] : Line)] = [] := rfl
        rw [hblank, List.append_nil]
        exact hbody
      · rw [if_neg hex]
        exact insertNewCategory_sorted body c sec hsec hbody
  · intro c
    exact ⟨ranksOf_insertNewCategory body c sec hsec,
      findPos_take (catRank c) body,
      findPos_get (catRank c) body⟩

/-! ### Append-only lemmas (claim C7) -/

theorem sigOf_append (a b : List Line) : sigOf (a ++ b) = sigOf a ++ sigOf b := by
  simp [sigOf, List.filter_append]

theorem rtrimL_of_blank {l : Line} (h : isBlank l = true) : rtrimL l = [] := by
  induction l with
  | nil => rfl
  | cons c cs ih =>
    have hc : pySpace c = true ∧ isBlank cs = true := by simpa [isBlank] using h
    rw [rtrimL_cons, ih hc.2]
    simp [hc.1]

theorem sig_blank_free {L : List Line} (h : ∀ l ∈ L, isBlank l = true) :
    sigOf L = [] := by
  induction L with
  | nil => rfl
  | cons l ls ih =>
    have hblank : isBlank (rtrimL l) = true := by
      rw [rtrimL_of_blank (h l (by simp))]
      rfl
    have hrest : sigOf ls = [] := ih (fun x hx => h x (by simp [hx]))
    simp [sigOf, hblank] at hrest ⊢
    exact hrest

theorem sigOf_rstrip (L : List Line) : sigOf (rstripLines L) = sigOf L := by
  unfold rstripLines
  cases hdrop : L.reverse.dropWhile isBlank with
  | nil =>
    have hall : ∀ l ∈ L, isBlank l = true := by
      intro l hl
      exact List.dropWhile_eq_nil_iff.mp hdrop l (List.mem_reverse.mpr hl)
    rw [sig_blank_free hall]
    rfl
  | cons last restRev =>
    have hsplit : L.reverse = L.reverse.takeWhile isBlank ++ (last :: restRev) := by
      rw [← hdrop, List.takeWhile_append_dropWhile]
    have hbl : sigOf (L.reverse.takeWhile isBlank) = [] :=
      sig_blank_free (fun l hl => List.mem_takeWhile_imp hl)
    have hrev : sigOf L.reverse = sigOf [last] ++ sigOf restRev := by
      rw [hsplit, sigOf_append, hbl, List.nil_append]
      rw [show (last :: restRev) = [last] ++ restRev from rfl, sigOf_append]
    have hsingle : sigOf [rtrimL last] = sigOf [last] := by
      simp [sigOf, rtrimL_idem]
    have hrrev : ∀ X : List Line, sigOf X.reverse = (sigOf X).reverse := by
      intro X
      simp [sigOf, List.filter_reverse]
    show sigOf ((rtrimL last :: restRev).reverse) = sigOf L
    rw [hrrev]
    conv_rhs => rw [← List.reverse_reverse L, hrrev, hrev]
    rw [show (rtrimL last :: restRev) = [rtrimL last] ++ restRev from rfl, sigOf_append,
      hsingle]

theorem sig_appendUnderGo (hline : Line) (sec : List Line) :
    ∀ (f : Nat) (L : List Line), List.Sublist (sigOf L) (sigOf (appendUnderGo hline sec f L)) := by
  intro f
  induction f with
  | zero => intro L; cases L <;> exact List.Sublist.refl _
  | succ f ih =>
    intro L
    cases L with
    | nil => exact List.Sublist.refl _
    | cons l ls =>
      by_cases h : l = hline
      · rw [appendUnderGo_cons_pos hline sec f l ls h]
        rw [show (l :: ls) = [l] ++ ls from rfl]
        rw [show (l :: (ls.takeWhile isBlank
            ++ (ls.dropWhile isBlank).takeWhile (fun x => ¬ (strL "## ").isPrefixOf x)
            ++ [[]] ++ sec ++ appendUnderGo hline sec f
              ((ls.dropWhile isBlank).dropWhile (fun x => ¬ (strL "## ").isPrefixOf x))))
          = [l] ++ (ls.takeWhile isBlank
            ++ (ls.dropWhile isBlank).takeWhile (fun x => ¬ (strL "## ").isPrefixOf x)
            ++ [[]] ++ sec ++ appendUnderGo hline sec f
              ((ls.dropWhile isBlank).dropWhile (fun x => ¬ (strL "## ").isPrefixOf x)))
          from rfl]
        rw [sigOf_append, sigOf_append]
        refine List.Sublist.append_left ?_ (sigOf [l])
        have hls : sigOf ls
            = sigOf (ls.takeWhile isBlank)
              ++ (sigOf ((ls.dropWhile isBlank).takeWhile
                    (fun x => ¬ (strL "## ").isPrefixOf x))
              ++ sigOf ((ls.dropWhile isBlank).dropWhile
                    (fun x => ¬ (strL "## ").isPrefixOf x))) := by
          rw [← sigOf_append, ← sigOf_append, List.takeWhile_append_dropWhile,
            List.takeWhile_append_dropWhile]
        rw [hls, sigOf_append, sigOf_append, sigOf_append, sigOf_append]
        simp only [List.append_assoc]
        refine List.Sublist.append_left ?_ _
        refine List.Sublist.append_left ?_ _
        refine List.Sublist.trans (ih _) ?_
        refine List.Sublist.trans (List.sublist_append_right (sigOf sec) _) ?_
        exact List.sublist_append_right (sigOf [([] : Line)]) _
      · rw [appendUnderGo_cons_neg hline sec f l ls h,
          show (l :: ls) = [l] ++ ls from rfl,
          show (l :: appendUnderGo hline sec f ls)
            = [l] ++ appendUnderGo hline sec f ls from rfl,
          sigOf_append, sigOf_append]
        exact List.Sublist.append_left (ih ls) _

/-- Claim C7, counterexample: the final rstrip of `_insert_new_category`
can rewrite previously written section content — a What-line ending in a
space loses that space when a new category is inserted before the last
section, so the old line is no longer present unchanged. -/
theorem writer_trailing_trim_counterexample :
    strL "**What:** x "
      ∈ [strL "## Patterns", ([] : Line), strL "### T", strL "**What:** x ", ([] : Line)]
    ∧ strL "**What:** x "
      ∉ insertSectionInBody
          [strL "## Patterns", ([] : Line), strL "### T", strL "**What:** x ", ([] : Line)]
          (some .decision) [strL "### D"] := by
  refine ⟨by decide, by decide⟩

/-- Claim C7 (amended): the writer is append-only up to trailing
whitespace: the sequence of right-trimmed non-blank lines of the old body
is a subsequence of that of the new body (previously written section
content survives, in order, except that trailing whitespace at the end of
the file may be trimmed), and delete never modifies the mirror. -/
theorem writer_append_only_delete_untouched (body : List Line) (cat : Option Category)
    (sec : List Line) :
    List.Sublist (sigOf body) (sigOf (insertSectionInBody body cat sec))
    ∧ (∀ (st : MemState) (pfx : Line) (st' : MemState) (b : Bool),
        deleteM st pfx = .ok (st', b) → st'.mirror = st.mirror) := by
  constructor
  · cases cat with
    | none =>
      show List.Sublist (sigOf body) (sigOf (rstripLines body ++ [[]] ++ sec ++ [[]]))
      rw [sigOf_append, sigOf_append, sigOf_append, sigOf_rstrip]
      simp only [List.append_assoc]
      exact List.sublist_append_left _ _
    | some c =>
      have hform : insertSectionInBody body (some c) sec
          = if (body.any fun l => containsSub (strL "## " ++ CATEGORY_HEADINGS c) l) = true
            then appendUnderExisting body (CATEGORY_HEADINGS c) sec
            else insertNewCategory body c sec := rfl
      rw [hform]
      by_cases hex : (body.any fun l => containsSub (strL "## " ++ CATEGORY_HEADINGS c) l)
          = true
      · rw [if_pos hex]
        unfold appendUnderExisting appendUnder
        rw [sigOf_append]
        exact (sig_appendUnderGo _ sec _ body).trans (List.sublist_append_left _ _)
      · rw [if_neg hex]
        unfold insertNewCategory
        rw [sigOf_append, sigOf_rstrip, sigOf_append, sigOf_append, sigOf_append,
          sigOf_append]
        conv_lhs => rw [← List.take_append_drop (findPos (catRank c) body) body,
          sigOf_append]
        simp only [List.append_assoc]
        refine List.Sublist.append_left ?_ _
        refine List.Sublist.trans (List.sublist_append_left
          (sigOf (List.drop (findPos (catRank c) body) body)) (sigOf [([] : Line)])) ?_
        refine List.Sublist.trans (List.sublist_append_right (sigOf [([] : Line)]) _) ?_
        refine List.Sublist.trans (List.sublist_append_right (sigOf sec) _) ?_
        exact List.sublist_append_right
          (sigOf [strL "## " ++ CATEGORY_HEADINGS c, ([] : Line)]) _
  · intro st pfx st' b hdel
    unfold deleteM at hdel
    cases hm : st.rows.filter (fun r => pfx.isPrefixOf r.id) with
    | nil =>
      rw [hm] at hdel
      cases hdel
      rfl
    | cons r rest =>
      cases rest with
      | nil =>
        rw [hm] at hdel
        cases hdel
        rfl
      | cons r' rest' =>
        rw [hm] at hdel
        cases hdel

/-- Witness for `writer_append_only_delete_untouched`: deleting a record
by prefix leaves the mirror exactly as it was. -/
theorem writer_append_only_delete_untouched_witness :
    deleteM ⟨[(strL "f", [strL "x"])], [⟨1, strL "abc", exMem .decision "D", none⟩], []⟩
        (strL "a")
      = .ok (⟨[(strL "f", [strL "x"])], [], []⟩, true)
    ∧ (⟨[(strL "f", [strL "x"])], [], []⟩ : MemState).mirror = [(strL "f", [strL "x"])] := by
  constructor
  · rfl
  · exact (writer_append_only_delete_untouched [] none []).2
      ⟨[(strL "f", [strL "x"])], [⟨1, strL "abc", exMem .decision "D", none⟩], []⟩
      (strL "a") ⟨[(strL "f", [strL "x"])], [], []⟩ true rfl

/-! ### Tag merging (claim C6) -/

theorem lexLt_irrefl (a : Line) : lexLt a a = false := by
  induction a with
  | nil => rfl
  | cons c cs ih => simp [lexLt, ih]

theorem lexLt_asymm : ∀ {a b : Line}, lexLt a b = true → lexLt b a = false
  | [], [], h => by cases h
  | [], _ :: _, _ => rfl
  | _ :: _, [], h => by cases h
  | x :: xs, y :: ys, h => by
    by_cases hxy : x = y
    · subst hxy
      simp only [lexLt, if_pos rfl] at h ⊢
      exact lexLt_asymm h
    · simp only [lexLt, if_neg hxy] at h
      have hlt : x < y := of_decide_eq_true h
      simp only [lexLt, if_neg (Ne.symm hxy)]
      exact decide_eq_false (not_lt_of_lt hlt)

theorem lexLt_connex : ∀ {a b : Line}, a ≠ b → lexLt a b = true ∨ lexLt b a = true
  | [], [], h => absurd rfl h
  | [], _ :: _, _ => Or.inl rfl
  | _ :: _, [], _ => Or.inr rfl
  | x :: xs, y :: ys, h => by
    by_cases hxy : x = y
    · subst hxy
      have hne : xs ≠ ys := fun hc => h (by rw [hc])
      rcases lexLt_connex hne with h1 | h1
      · exact Or.inl (by simpa [lexLt] using h1)
      · exact Or.inr (by simpa [lexLt] using h1)
    · rcases lt_or_gt_of_ne hxy with hlt | hlt
      · exact Or.inl (by simp [lexLt, if_neg hxy, hlt])
      · exact Or.inr (by simp [lexLt, if_neg (Ne.symm hxy), hlt])

theorem lexLt_trans : ∀ {a b c : Line}, lexLt a b = true → lexLt b c = true →
    lexLt a c = true
  | [], [], _, h1, _ => by cases h1
  | [], _ :: _, [], _, h2 => by cases h2
  | [], _ :: _, _ :: _, _, _ => rfl
  | _ :: _, [], _, h1, _ => by cases h1
  | _ :: _, _ :: _, [], _, h2 => by cases h2
  | x :: xs, y :: ys, z :: zs, h1, h2 => by
    by_cases hxy : x = y <;> by_cases hyz : y = z
    · subst hxy; subst hyz
      simp only [lexLt, if_pos rfl] at h1 h2 ⊢
      exact lexLt_trans h1 h2
    · subst hxy
      simp only [lexLt, if_pos rfl] at h1
      simp only [lexLt, if_neg hyz] at h2 ⊢
      exact h2
    · subst hyz
      simp only [lexLt, if_neg hxy] at h1 ⊢
      exact h1
    · simp only [lexLt, if_neg hxy] at h1
      simp only [lexLt, if_neg hyz] at h2
      have hlt : x < z := lt_trans (of_decide_eq_true h1) (of_decide_eq_true h2)
      have hne : x ≠ z := ne_of_lt hlt
      simp [lexLt, if_neg hne, hlt]

theorem mem_insertSortedSet {z x : Line} {l : List Line} :
    z ∈ insertSortedSet x l ↔ z = x ∨ z ∈ l := by
  induction l with
  | nil => simp [insertSortedSet]
  | cons y ys ih =>
    by_cases hxy : x = y
    · subst hxy
      simp only [insertSortedSet, if_pos rfl]
      constructor
      · intro h; exact Or.inr h
      · intro h
        rcases h with h | h
        · subst h; simp
        · exact h
    · by_cases hlt : lexLt x y = true
      · simp [insertSortedSet, if_neg hxy, hlt, List.mem_cons]
      · simp only [insertSortedSet, if_neg hxy, if_neg hlt, List.mem_cons, ih]
        tauto

theorem pairwise_insertSortedSet {x : Line} {l : List Line}
    (h : List.Pairwise (fun a b => lexLt a b = true) l) :
    List.Pairwise (fun a b => lexLt a b = true) (insertSortedSet x l) := by
  induction l with
  | nil => simp [insertSortedSet]
  | cons y ys ih =>
    rcases List.pairwise_cons.mp h with ⟨hy, hys⟩
    by_cases hxy : x = y
    · simpa [insertSortedSet, if_pos hxy] using h
    · by_cases hlt : lexLt x y = true
      · simp only [insertSortedSet, if_neg hxy, if_pos hlt]
        refine List.pairwise_cons.mpr ⟨?_, h⟩
        intro z hz
        rcases List.mem_cons.mp hz with rfl | hz'
        · exact hlt
        · exact lexLt_trans hlt (hy z hz')
      · simp only [insertSortedSet, if_neg hxy, if_neg hlt]
        refine List.pairwise_cons.mpr ⟨?_, ih hys⟩
        intro z hz
        rcases mem_insertSortedSet.mp hz with rfl | hz'
        · rcases lexLt_connex hxy with h1 | h1
          · exact absurd h1 hlt
          · exact h1
        · exact hy z hz'

theorem sortedSetL_pairwise (l : List Line) :
    List.Pairwise (fun a b => lexLt a b = true) (sortedSetL l) := by
  induction l with
  | nil => simp [sortedSetL]
  | cons x xs ih => exact pairwise_insertSortedSet ih

theorem mem_sortedSetL {z : Line} {l : List Line} :
    z ∈ sortedSetL l ↔ z ∈ l := by
  induction l with
  | nil => simp [sortedSetL]
  | cons x xs ih =>
    show z ∈ insertSortedSet x (sortedSetL xs) ↔ _
    rw [mem_insertSortedSet, ih]
    simp

theorem sorted_unique : ∀ {l l' : List Line},
    List.Pairwise (fun a b => lexLt a b = true) l →
    List.Pairwise (fun a b => lexLt a b = true) l' →
    (∀ z, z ∈ l ↔ z ∈ l') → l = l'
  | [], [], _, _, _ => rfl
  | [], y :: ys, _, _, hmem => by
    have := (hmem y).mpr (by simp)
    simp at this
  | x :: xs, [], _, _, hmem => by
    have := (hmem x).mp (by simp)
    simp at this
  | x :: xs, y :: ys, h, h', hmem => by
    rcases List.pairwise_cons.mp h with ⟨hx, hxs⟩
    rcases List.pairwise_cons.mp h' with ⟨hy, hys⟩
    have hxy : x = y := by
      by_contra hne
      have hxl : x ∈ y :: ys := (hmem x).mp (by simp)
      have hyl : y ∈ x :: xs := (hmem y).mpr (by simp)
      rcases List.mem_cons.mp hxl with h1 | h1
      · exact hne h1
      · rcases List.mem_cons.mp hyl with h2 | h2
        · exact hne h2.symm
        · have l1 := hy x h1
          have l2 := hx y h2
          rw [lexLt_asymm l1] at l2
          cases l2
    subst hxy
    have htails : ∀ z, z ∈ xs ↔ z ∈ ys := by
      intro z
      constructor
      · intro hz
        have hzx : z ≠ x := by
          intro hc
          subst hc
          have := hx z hz
          rw [lexLt_irrefl] at this
          cases this
        have : z ∈ x :: ys := (hmem z).mp (by simp [hz])
        rcases List.mem_cons.mp this with h1 | h1
        · exact absurd h1 hzx
        · exact h1
      · intro hz
        have hzx : z ≠ x := by
          intro hc
          subst hc
          have := hy z hz
          rw [lexLt_irrefl] at this
          cases this
        have : z ∈ x :: xs := (hmem z).mpr (by simp [hz])
        rcases List.mem_cons.mp this with h1 | h1
        · exact absurd h1 hzx
        · exact h1
    rw [sorted_unique hxs hys htails]

theorem insertSorted_perm (x : Line) (l : List Line) :
    (insertSorted x l).Perm (x :: l) := by
  induction l with
  | nil => exact List.Perm.refl _
  | cons y ys ih =>
    by_cases h : lexLt y x = true
    · simp only [insertSorted, if_pos h]
      exact (ih.cons y).trans (List.Perm.swap x y ys)
    · simp only [insertSorted, if_neg h]
      exact List.Perm.refl _

theorem sortL_perm (l : List Line) : (sortL l).Perm l := by
  induction l with
  | nil => exact List.Perm.refl _
  | cons x xs ih =>
    show (insertSorted x (sortL xs)).Perm (x :: xs)
    exact (insertSorted_perm x (sortL xs)).trans (ih.cons x)

theorem takeWhile_append_all {p : Char → Bool} : ∀ {x : Line}, (∀ a ∈ x, p a = true) →
    ∀ y : Line, (x ++ y).takeWhile p = x ++ y.takeWhile p
  | [], _, y => rfl
  | c :: cs, h, y => by
    have hc : p c = true := h c (by simp)
    rw [List.cons_append, List.takeWhile_cons, if_pos hc,
      takeWhile_append_all (fun a ha => h a (by simp [ha])) y]
    rfl

theorem dropWhile_append_all {p : Char → Bool} : ∀ {x : Line}, (∀ a ∈ x, p a = true) →
    ∀ y : Line, (x ++ y).dropWhile p = y.dropWhile p
  | [], _, y => rfl
  | c :: cs, h, y => by
    have hc : p c = true := h c (by simp)
    rw [List.cons_append, List.dropWhile_cons, if_pos hc,
      dropWhile_append_all (fun a ha => h a (by simp [ha])) y]

theorem joinComma_cons₂ (a b : Line) (l : List Line) :
    joinComma (a :: b :: l) = a ++ (',' :: ' ' :: joinComma (b :: l)) := rfl

theorem joinComma_single (t : Line) : joinComma [t] = t := by
  show (List.intersperse (strL ", ") [t]).flatten = t
  simp

theorem mem_joinComma : ∀ {c : Char} {ts : List Line}, c ∈ joinComma ts →
    (∃ t ∈ ts, c ∈ t) ∨ c = ',' ∨ c = ' '
  | c, [], h => by cases h
  | c, [t], h => by
    rw [joinComma_single] at h
    exact Or.inl ⟨t, by simp, h⟩
  | c, t :: t' :: rest, h => by
    rw [joinComma_cons₂] at h
    rcases List.mem_append.mp h with h1 | h1
    · exact Or.inl ⟨t, by simp, h1⟩
    · rcases List.mem_cons.mp h1 with h2 | h2
      · exact Or.inr (Or.inl h2)
      · rcases List.mem_cons.mp h2 with h3 | h3
        · exact Or.inr (Or.inr h3)
        · rcases mem_joinComma h3 with h4 | h4
          · obtain ⟨u, hu, hcu⟩ := h4
            exact Or.inl ⟨u, by simp [hu], hcu⟩
          · exact Or.inr h4

theorem splitOnChar_ne_nil (ch : Char) : ∀ l : Line, splitOnChar ch l ≠ []
  | [] => by simp [splitOnChar]
  | c :: cs => by
    show (match splitOnChar ch cs with
      | [] => [[]]
      | g :: gs => if c = ch then [] :: g :: gs else (c :: g) :: gs) ≠ []
    cases h : splitOnChar ch cs with
    | nil => simp
    | cons g gs => by_cases hc : c = ch <;> simp [hc]

theorem splitOnChar_cons_eq (ch c : Char) (cs : Line) :
    splitOnChar ch (c :: cs)
      = match splitOnChar ch cs with
        | [] => [[]]
        | g :: gs => if c = ch then [] :: g :: gs else (c :: g) :: gs := rfl

theorem splitOnChar_cons_of_cons (ch c : Char) {cs : Line} {g : Line} {gs : List Line}
    (h : splitOnChar ch cs = g :: gs) :
    splitOnChar ch (c :: cs) = if c = ch then [] :: g :: gs else (c :: g) :: gs := by
  rw [splitOnChar_cons_eq, h]

theorem splitOnChar_append_sep (ch : Char) :
    ∀ {a : Line} (z : Line), (∀ c ∈ a, c ≠ ch) →
      splitOnChar ch (a ++ ch :: z) = a :: splitOnChar ch z
  | [], z, _ => by
    rw [List.nil_append, splitOnChar_cons_eq]
    cases hz : splitOnChar ch z with
    | nil => exact absurd hz (splitOnChar_ne_nil ch z)
    | cons g gs => simp
  | c :: a', z, h => by
    rw [List.cons_append, splitOnChar_cons_eq,
      splitOnChar_append_sep ch z (fun x hx => h x (by simp [hx]))]
    simp [h c (by simp)]

theorem splitOnChar_no (ch : Char) : ∀ {a : Line}, (∀ c ∈ a, c ≠ ch) →
    splitOnChar ch a = [a]
  | [], _ => rfl
  | c :: cs, h => by
    rw [splitOnChar_cons_eq, splitOnChar_no ch (fun x hx => h x (by simp [hx]))]
    simp [h c (by simp)]

theorem stripL_cons_space (g : Line) : stripL (' ' :: g) = stripL g := by
  unfold stripL
  by_cases hg : (rtrimL g).isEmpty
  · rw [rtrimL_cons, if_pos hg, if_pos (by decide : pySpace ' ' = true)]
    rw [List.isEmpty_iff.mp hg]
  · rw [rtrimL_cons, if_neg hg]
    unfold ltrimL
    rw [List.dropWhile_cons, if_pos (by decide : pySpace ' ' = true)]

theorem head_not_space_of_strip {t : Line} (hs : stripL t = t) (hne : t ≠ []) :
    ∃ c cs, t = c :: cs ∧ pySpace c = false := by
  cases t with
  | nil => exact absurd rfl hne
  | cons c cs =>
    refine ⟨c, cs, rfl, ?_⟩
    by_contra hc
    have hcs : pySpace c = true := by
      cases h : pySpace c
      · exact absurd h hc
      · rfl
    by_cases hb : (rtrimL cs).isEmpty
    · have h1 : rtrimL (c :: cs) = [] := by rw [rtrimL_cons, if_pos hb, if_pos hcs]
      have : stripL (c :: cs) = [] := by unfold stripL; rw [h1]; rfl
      rw [hs] at this
      cases this
    · have h1 : rtrimL (c :: cs) = c :: rtrimL cs := by rw [rtrimL_cons, if_neg hb]
      have h2 : stripL (c :: cs) = ltrimL (rtrimL cs) := by
        unfold stripL
        rw [h1]
        unfold ltrimL
        rw [List.dropWhile_cons, if_pos hcs]
      have hlen : (ltrimL (rtrimL cs)).length ≤ cs.length := by
        have e1 : (ltrimL (rtrimL cs)).length ≤ (rtrimL cs).length :=
          (List.dropWhile_sublist _).length_le
        have e2 : (rtrimL cs).length ≤ cs.length := (rtrimL_isPre cs).sublist.length_le
        omega
      rw [hs] at h2
      rw [← h2] at hlen
      simp at hlen

theorem splitComma_join : ∀ {ts : List Line}, ts ≠ [] →
    (∀ t ∈ ts, ',' ∉ t ∧ stripL t = t) →
    (splitOnChar ',' (joinComma ts)).map stripL = ts
  | [], hne, _ => absurd rfl hne
  | [t], _, h => by
    rw [joinComma_single, splitOnChar_no ',' (fun c hc hceq => (h t (by simp)).1 (hceq ▸ hc))]
    simp [(h t (by simp)).2]
  | t :: t' :: rest, _, h => by
    rw [joinComma_cons₂]
    have hsplit : splitOnChar ',' (t ++ ',' :: (' ' :: joinComma (t' :: rest)))
        = t :: splitOnChar ',' (' ' :: joinComma (t' :: rest)) :=
      splitOnChar_append_sep ',' _ (fun c hc hceq => (h t (by simp)).1 (hceq ▸ hc))
    rw [hsplit]
    have hih : (splitOnChar ',' (joinComma (t' :: rest))).map stripL = t' :: rest :=
      splitComma_join (by simp) (fun x hx => h x (by simp [hx]))
    cases hg : splitOnChar ',' (joinComma (t' :: rest)) with
    | nil => exact absurd hg (splitOnChar_ne_nil ',' _)
    | cons g gs =>
      rw [hg] at hih
      rw [splitOnChar_cons_of_cons ',' ' ' hg, if_neg (by decide : ¬ (' ' = ','))]
      simp only [List.map_cons] at hih ⊢
      rw [(h t (by simp)).2, stripL_cons_space]
      injection hih with h1 h2
      rw [h1, h2]

theorem isBlank_cons_false {c : Char} (h : pySpace c = false) (l : Line) :
    isBlank (c :: l) = false := by
  simp [isBlank, h]

theorem parse_tags_roundtrip (ts : List Line) (h : ∀ t ∈ ts, goodTag t) :
    parseListField (strL "tags: [" ++ joinComma ts ++ [']']) = ts := by
  have hJ' : ∀ a ∈ joinComma ts, decide (a ≠ ']') = true := by
    intro a ha
    apply decide_eq_true
    rcases mem_joinComma ha with ⟨t, ht, hct⟩ | hc' | hc'
    · exact fun hceq => ((h t ht).2.2.2.2.1) (hceq ▸ hct)
    · subst hc'; decide
    · subst hc'; decide
  have hbr : extractBracket (strL "tags: [" ++ joinComma ts ++ [']'])
      = if ((joinComma ts ++ [']']).dropWhile (fun c => c ≠ ']')).isEmpty then none
        else some ((joinComma ts ++ [']']).takeWhile (fun c => c ≠ ']')) := rfl
  have hd : (joinComma ts ++ [']']).dropWhile (fun c => c ≠ ']') = [']'] := by
    rw [dropWhile_append_all hJ' [']']]
    rfl
  have htw : (joinComma ts ++ [']']).takeWhile (fun c => c ≠ ']') = joinComma ts := by
    rw [takeWhile_append_all hJ' [']']]
    simp
  unfold parseListField
  rw [hbr, hd, htw]
  cases ts with
  | nil => rfl
  | cons t ts' =>
    obtain ⟨c, cs, htc, hcs⟩ :=
      head_not_space_of_strip (h t (by simp)).2.1 (h t (by simp)).1
    have hshape : ∃ z, joinComma (t :: ts') = t ++ z := by
      cases ts' with
      | nil => exact ⟨[], by rw [joinComma_single, List.append_nil]⟩
      | cons u us => exact ⟨_, joinComma_cons₂ t u us⟩
    obtain ⟨z, hz⟩ := hshape
    have hblank : isBlank (joinComma (t :: ts')) = false := by
      rw [hz, htc, List.cons_append]
      exact isBlank_cons_false hcs _
    show (if isBlank (joinComma (t :: ts')) = true then []
          else (splitOnChar ',' (joinComma (t :: ts'))).map stripL) = t :: ts'
    rw [hblank]
    simp only [Bool.false_eq_true, if_false]
    exact splitComma_join (by simp) (fun x hx => ⟨(h x hx).2.2.1, (h x hx).2.1⟩)

/-- C6: saving two records with tag sets `t1`, `t2` into the same
(project, day) mirror file yields a frontmatter tags line carrying the
union of `t1` and `t2`, deduplicated by exact (case-sensitive) string
equality and sorted ascending — for round-trippable tags (nonempty,
stripped, free of the list delimiters).  The claim's case-insensitive
dedupe is refuted by `mirror_tags_case_sensitive_counterexample`:
`sorted(set(existing_tags + memory.tags))` uses Python's exact string
equality. -/
theorem mirror_tags_merge (t1 t2 : List Line)
    (h1 : ∀ t ∈ t1, goodTag t) (h2 : ∀ t ∈ t2, goodTag t) :
    (tagsFile2 t1 t2).find? (fun l => (strL "tags:").isPrefixOf l)
      = some (strL "tags: [" ++ joinComma (sortedSetL (t1 ++ t2)) ++ [']'])
    ∧ List.Pairwise (fun a b => lexLt a b = true) (sortedSetL (t1 ++ t2))
    ∧ ∀ z, z ∈ sortedSetL (t1 ++ t2) ↔ z ∈ t1 ∨ z ∈ t2 := by
  have h1' : ∀ t ∈ sortL t1, goodTag t := fun t ht =>
    h1 t ((sortL_perm t1).mem_iff.mp ht)
  have hround : parseListField (strL "tags: [" ++ joinComma (sortL t1) ++ [']'])
      = sortL t1 := parse_tags_roundtrip (sortL t1) h1'
  have hset : sortedSetL (sortL t1 ++ t2) = sortedSetL (t1 ++ t2) :=
    sorted_unique (sortedSetL_pairwise _) (sortedSetL_pairwise _) (by
      intro z
      rw [mem_sortedSetL, mem_sortedSetL]
      simp [List.mem_append, (sortL_perm t1).mem_iff])
  have hkey : (tagsFile2 t1 t2).find? (fun l => (strL "tags:").isPrefixOf l)
      = some (strL "tags: ["
          ++ joinComma (sortedSetL
               (parseListField (strL "tags: [" ++ joinComma (sortL t1) ++ [']']) ++ t2))
          ++ [']']) := rfl
  rw [hround, hset] at hkey
  refine ⟨hkey, sortedSetL_pairwise _, fun z => ?_⟩
  rw [mem_sortedSetL]
  simp [List.mem_append]

/-- Witness for `mirror_tags_merge` at `t1 = [beta, alpha]`,
`t2 = [alpha, gamma]`: the merged tags line is
`tags: [alpha, beta, gamma]`. -/
theorem mirror_tags_merge_witness :
    (∀ t ∈ [strL "beta", strL "alpha"], goodTag t)
    ∧ (∀ t ∈ [strL "alpha", strL "gamma"], goodTag t)
    ∧ (tagsFile2 [strL "beta", strL "alpha"] [strL "alpha", strL "gamma"]).find?
        (fun l => (strL "tags:").isPrefixOf l)
      = some (strL "tags: ["
          ++ joinComma (sortedSetL ([strL "beta", strL "alpha"] ++ [strL "alpha", strL "gamma"]))
          ++ [']']) :=
  ⟨by decide, by decide,
    (mirror_tags_merge [strL "beta", strL "alpha"] [strL "alpha", strL "gamma"]
      (by decide) (by decide)).1⟩

/-- C6 counterexample to case-insensitive dedupe: tags `API` and `api`
are equal up to case, yet after the two saves both survive in the
frontmatter (`tags: [API, api]`) — `sorted(set(...))` deduplicates by
exact string equality only. -/
theorem mirror_tags_case_sensitive_counterexample :
    (tagsFile2 [strL "API"] [strL "api"]).find? (fun l => (strL "tags:").isPrefixOf l)
      = some (strL "tags: [API, api]")
    ∧ (strL "API").map Char.toLower = (strL "api").map Char.toLower
    ∧ strL "API" ≠ strL "api" := by
  refine ⟨rfl, by decide, by decide⟩

/-- Witness for `insert_section_heading_order` at a concrete body and
section: the heading order is preserved. -/
theorem insert_section_heading_order_witness :
    (∀ l ∈ [strL "### T", strL "**What:** w"], lineRank l = none)
    ∧ RanksSorted [strL "## Patterns", [], strL "### P"]
    ∧ RanksSorted (insertSectionInBody [strL "## Patterns", [], strL "### P"]
        (some .decision) [strL "### T", strL "**What:** w"]) :=
  ⟨by decide, by unfold RanksSorted; decide,
    (insert_section_heading_order [strL "## Patterns", [], strL "### P"]
      (some .decision) [strL "### T", strL "**What:** w"]
      (by decide) (by unfold RanksSorted; decide)).1⟩

/-! ### Redaction idempotence and totality (claims C9, C10) -/

theorem reFindStep_some (r : RE) (next : Line → Bool) {s s' : Line}
    (hm : matchHere r s = some s') : reFindStep r next s = true := by
  unfold reFindStep
  rw [hm]

theorem reFindStep_none_cons (r : RE) (next : Line → Bool) {c : Char} {cs : Line}
    (hm : matchHere r (c :: cs) = none) : reFindStep r next (c :: cs) = next cs := by
  unfold reFindStep
  rw [hm]

theorem reSubStep_none_nil (r : RE) (repl : Line) (next : Line → Line)
    (hm : matchHere r [] = none) : reSubStep r repl next [] = [] := by
  unfold reSubStep
  rw [hm]

theorem reSubStep_none_cons (r : RE) (repl : Line) (next : Line → Line)
    {c : Char} {cs : Line} (hm : matchHere r (c :: cs) = none) :
    reSubStep r repl next (c :: cs) = c :: next cs := by
  unfold reSubStep
  rw [hm]

theorem reSubGo_of_not_found (r : RE) (repl : Line) :
    ∀ (f : Nat) (s : Line), reFindGo r f s = false → reSubGo r repl f s = s
  | 0, _, _ => rfl
  | f + 1, s, h => by
    have h' : reFindStep r (reFindGo r f) s = false := h
    show reSubStep r repl (reSubGo r repl f) s = s
    cases hm : matchHere r s with
    | some s' =>
      rw [reFindStep_some r (reFindGo r f) hm] at h'
      cases h'
    | none =>
      cases s with
      | nil => exact reSubStep_none_nil r repl (reSubGo r repl f) hm
      | cons c cs =>
        rw [reSubStep_none_cons r repl (reSubGo r repl f) hm]
        rw [reFindStep_none_cons r (reFindGo r f) hm] at h'
        exact congrArg (c :: ·) (reSubGo_of_not_found r repl f cs h')

theorem strReplaceGo_of_not_contained (p : Char) (ps repl : Line) :
    ∀ (f : Nat) (s : Line), containsSub (p :: ps) s = false →
      strReplaceGo p ps repl f s = s
  | 0, _, _ => rfl
  | _ + 1, [], _ => rfl
  | f + 1, c :: cs, h => by
    have h' : (p :: ps).isPrefixOf (c :: cs) = false
        ∧ containsSub (p :: ps) cs = false := by
      simpa [containsSub] using h
    show (if (p :: ps).isPrefixOf (c :: cs) then
        repl ++ strReplaceGo p ps repl f (cs.drop ps.length)
      else c :: strReplaceGo p ps repl f cs) = c :: cs
    rw [h'.1]
    simp only [Bool.false_eq_true, if_false]
    exact congrArg (c :: ·) (strReplaceGo_of_not_contained p ps repl f cs h'.2)

theorem strReplace_of_not_contained (p : Char) (ps repl : Line) (s : Line)
    (h : containsSub (p :: ps) s = false) : strReplace p ps repl s = s :=
  strReplaceGo_of_not_contained p ps repl s.length s h

theorem layer1Go_stable (s : Line)
    (h : reSub tagRE (strL "[REDACTED]") s = s) : ∀ f : Nat, layer1Go f s = s
  | 0 => rfl
  | f + 1 => by
    unfold layer1Go
    rw [h]
    simp

theorem layer1_of_not_found (s : Line) (h : reFind tagRE s = false) :
    layer1 s = s :=
  layer1Go_stable s
    (reSubGo_of_not_found tagRE (strL "[REDACTED]") (s.length + 1) s h)
    (s.length + 1)

theorem foldl_redactStep_stable :
    ∀ (os : List (Option RE)) (acc : Line),
      (∀ r ∈ os.filterMap id, reFind r acc = false) →
      os.foldl redactStep acc = acc
  | [], _, _ => rfl
  | o :: rest, acc, h => by
    have hstep : redactStep acc o = acc := by
      cases o with
      | none => rfl
      | some r =>
        have hr : reFind r acc = false := h r (by simp [List.filterMap_cons])
        exact reSubGo_of_not_found r (strL "[REDACTED]") (acc.length + 1) acc hr
    rw [List.foldl_cons, hstep]
    refine foldl_redactStep_stable rest acc (fun r hr => h r ?_)
    cases o with
    | none => simpa [List.filterMap_cons] using hr
    | some a =>
      simp only [List.filterMap_cons, id, List.mem_cons]
      exact Or.inr hr

/-- C9 counterexample: `redact` is not idempotent.  On
`<red<redacted>acted>` there is no matched tag pair, so layer 1 leaves
the text alone; the single-pass orphan cleanup
`text.replace("<redacted>", "")` then removes the inner occurrence and
splices the surrounding characters into a brand-new `<redacted>`, which
a second `redact` call removes. -/
theorem redact_idempotence_counterexample :
    redactM (strL "<red<redacted>acted>") [] = strL "<redacted>"
    ∧ redactM (redactM (strL "<red<redacted>acted>") []) []
        ≠ redactM (strL "<red<redacted>acted>") [] := by
  constructor
  · decide
  · decide

/-- C9 (amended): `redact` is idempotent on every input whose output is
stable — no tag-pair match, no orphaned `<redacted>`/`</redacted>`
substring, and no remaining match of a built-in or compiled extra
pattern in the output.  (The unconditional claim is refuted by
`redact_idempotence_counterexample`.) -/
theorem redact_idempotent_when_stable (x : Line) (extra : List Line)
    (h1 : reFind tagRE (redactM x extra) = false)
    (h2 : containsSub (strL "<redacted>") (redactM x extra) = false)
    (h3 : containsSub (strL "</redacted>") (redactM x extra) = false)
    (h4 : ∀ r ∈ SENSITIVE, reFind r (redactM x extra) = false)
    (h5 : ∀ r ∈ extra.filterMap safeCompile, reFind r (redactM x extra) = false) :
    redactM (redactM x extra) extra = redactM x extra := by
  have e1 : layer1 (redactM x extra) = redactM x extra := layer1_of_not_found _ h1
  have e2 : strReplace '<' (strL "redacted>") [] (redactM x extra) = redactM x extra :=
    strReplace_of_not_contained '<' (strL "redacted>") [] _ h2
  have e3 : strReplace '<' (strL "/redacted>") [] (redactM x extra) = redactM x extra :=
    strReplace_of_not_contained '<' (strL "/redacted>") [] _ h3
  have e4 : (SENSITIVE.map some ++ extra.map safeCompile).foldl redactStep
      (redactM x extra) = redactM x extra := by
    apply foldl_redactStep_stable
    intro r hr
    rw [List.filterMap_append] at hr
    rcases List.mem_append.mp hr with hr | hr
    · refine h4 r ?_
      simpa [List.filterMap_map] using hr
    · refine h5 r ?_
      simpa [List.filterMap_map] using hr
  show (SENSITIVE.map some ++ extra.map safeCompile).foldl redactStep
      (strReplace '<' (strL "/redacted>") []
        (strReplace '<' (strL "redacted>") [] (layer1 (redactM x extra))))
      = redactM x extra
  rw [e1, e2, e3]
  exact e4

/-- Witness for `redact_idempotent_when_stable`: `hello` is already
stable under redaction, and redacting it twice equals redacting once. -/
theorem redact_idempotent_when_stable_witness :
    reFind tagRE (redactM (strL "hello") []) = false
    ∧ containsSub (strL "<redacted>") (redactM (strL "hello") []) = false
    ∧ containsSub (strL "</redacted>") (redactM (strL "hello") []) = false
    ∧ (∀ r ∈ SENSITIVE, reFind r (redactM (strL "hello") []) = false)
    ∧ (∀ r ∈ ([] : List Line).filterMap safeCompile,
        reFind r (redactM (strL "hello") []) = false)
    ∧ redactM (redactM (strL "hello") []) [] = redactM (strL "hello") [] :=
  ⟨by decide, by decide, by decide, by decide, by decide,
    redact_idempotent_when_stable (strL "hello") []
      (by decide) (by decide) (by decide) (by decide) (by decide)⟩

/-- C10: an extra pattern that fails to compile (safe_compile_pattern
returns None) is silently skipped — redact still returns, and the
invalid pattern contributes no replacements: appending it to the
extra-pattern list leaves the output unchanged for every text. -/
theorem redact_skips_invalid_patterns (text : Line) (ps : List Line) (p : Line)
    (h : safeCompile p = none) :
    redactM text (ps ++ [p]) = redactM text ps := by
  unfold redactM
  rw [List.map_append, ← List.append_assoc, List.foldl_append]
  simp [h, redactStep]

/-- Witness for `redact_skips_invalid_patterns`: the malformed pattern
`(abc` (unbalanced group, rejected by re.compile) compiles to none and
its presence does not change the redaction of `x`. -/
theorem redact_skips_invalid_patterns_witness :
    safeCompile (strL "(abc") = none
    ∧ redactM (strL "x") ([] ++ [strL "(abc"]) = redactM (strL "x") [] :=
  ⟨rfl, redact_skips_invalid_patterns (strL "x") [] (strL "(abc") rfl⟩

end EchoVault
